import Mathlib

/-!
Shallow embedding of the tag-tree and document-library selection logic of the
`fred` frontend.

Strings are modelled as lists of characters (`Str`), JavaScript `Map` and
`Record` objects as association lists, and the JSX event handlers as pure
state-transition functions.  Sources embedded here:

* `tagTree.ts` — `fullPath`, `buildTree`, `findNode`,
  `collectDescendantTagIds`, `countUniqueDocs`;
* `DocumentLibraryTree.tsx` — `getDocsForTags`, `docsInSubtree`,
  `toggleFolderSelection`, the folder tri-state checkbox computation and the
  per-document checkbox click handler;
* `DocumentLibraryShareAddTab.tsx` — `handleShare`.
-/

/-- JavaScript strings, modelled as lists of characters. -/
abbrev Str := List Char

/-- Character class removed by JavaScript `String.prototype.trim`
(WhiteSpace and LineTerminator code points). -/
def isJsWhitespace (c : Char) : Bool :=
  c.val = 0x09 || c.val = 0x0A || c.val = 0x0B || c.val = 0x0C || c.val = 0x0D ||
  c.val = 0x20 || c.val = 0xA0 || c.val = 0x1680 ||
  (0x2000 ≤ c.val && c.val ≤ 0x200A) ||
  c.val = 0x2028 || c.val = 0x2029 || c.val = 0x202F || c.val = 0x205F ||
  c.val = 0x3000 || c.val = 0xFEFF

/-- Embedding of JavaScript `s.trim()`: strip leading and trailing whitespace. -/
def jsTrim (s : Str) : Str :=
  ((s.dropWhile isJsWhitespace).reverse.dropWhile isJsWhitespace).reverse

/-- Embedding of JavaScript `s.split("/")`.  `"".split("/")` is `[""]`;
every `'/'` starts a new (possibly empty) segment. -/
def splitOnSlash : Str → List Str
  | [] => [[]]
  | c :: cs =>
    match splitOnSlash cs with
    | [] => [[]]
    | s :: rest => if c = '/' then [] :: s :: rest else (c :: s) :: rest

/-- Join a list of segments with `'/'` separators (the inverse direction of
`splitOnSlash`; used to state what the `full` fields of tree nodes are). -/
def joinSlash : List Str → Str
  | [] => []
  | [s] => s
  | s :: rest => s ++ '/' :: joinSlash rest

/-- Shorthand to write concrete character lists from string literals. -/
def str (s : String) : Str := s.data

/-- The fields of `TagWithItemsId` / `TagWithPermissions` that the embedded
code reads: `id`, `name`, `path`, `item_ids` (`path` and `item_ids` are
optional in the OpenAPI type). -/
structure Tag where
  id : Str
  name : Str
  path : Option Str
  item_ids : Option (List Str)
  deriving DecidableEq

/-- Embedding of `fullPath` (tagTree.ts line 26-28):
`t.path && t.path.trim() ? \x7b...\x7d : t.name`; the two JavaScript
truthiness tests are non-emptiness of `path` and of `path.trim()`. -/
def fullPath (t : Tag) : Str :=
  match t.path with
  | none => t.name
  | some p => if p ≠ [] ∧ jsTrim p ≠ [] then p ++ '/' :: t.name else t.name

/-- Type `TagNode` (tagTree.ts lines 18-23).  The `children` field is a
`Map<string, TagNode>`, modelled as an insertion-ordered association list. -/
inductive TagNode : Type where
  | mk (name : Str) (full : Str) (children : List (Str × TagNode))
      (tagsHere : List Tag)

def TagNode.name : TagNode → Str
  | .mk n _ _ _ => n

def TagNode.full : TagNode → Str
  | .mk _ f _ _ => f

def TagNode.children : TagNode → List (Str × TagNode)
  | .mk _ _ c _ => c

def TagNode.tagsHere : TagNode → List Tag
  | .mk _ _ _ t => t

/-- Lookup on the children map, i.e. `Map.get`. -/
def lookupChild : List (Str × TagNode) → Str → Option TagNode
  | [], _ => none
  | (k, c) :: rest, seg => if k = seg then some c else lookupChild rest seg

/-- Update via `Map.set` on an existing key: replace the stored node, keeping order. -/
def replaceChild : List (Str × TagNode) → Str → TagNode → List (Str × TagNode)
  | [], _, _ => []
  | (k, c) :: rest, seg, c2 =>
    if k = seg then (k, c2) :: rest else (k, c) :: replaceChild rest seg c2

/-- One iteration group of the `buildTree` loop (tagTree.ts lines 33-48):
walk/extend the tree along the segment list `segs` of one tag and push the
tag at the final node.  `isFirst` tracks `i === 0` of the `forEach`, which
decides whether the freshly created child's `full` is `seg` or
`cur.full + "/" + seg`. -/
def insertTag : TagNode → Bool → List Str → Tag → TagNode
  | .mk name full children tags, _, [], t => .mk name full children (tags ++ [t])
  | .mk name full children tags, isFirst, seg :: rest, t =>
    match lookupChild children seg with
    | some c => .mk name full (replaceChild children seg (insertTag c false rest t)) tags
    | none =>
      let child0 : TagNode :=
        .mk seg (if isFirst then seg else full ++ '/' :: seg) [] []
      .mk name full (children ++ [(seg, insertTag child0 false rest t)]) tags

/-- The non-empty segments of a tag's full path:
`p.split("/").filter(Boolean)` (tagTree.ts line 35). -/
def segsOfTag (t : Tag) : List Str :=
  (splitOnSlash (fullPath t)).filter (fun s => !s.isEmpty)

/-- The root node created at the top of `buildTree` (tagTree.ts line 32). -/
def emptyRoot : TagNode := .mk [] [] [] []

/-- Embedding of `buildTree` (tagTree.ts lines 31-51). -/
def buildTree (tags : List Tag) : TagNode :=
  tags.foldl (fun root t => insertTag root true (segsOfTag t) t) emptyRoot

/-- Walk down the tree along a list of segments; `none` when some segment has
no child (the loop body of `findNode`, tagTree.ts lines 57-62). -/
def nodeAt : TagNode → List Str → Option TagNode
  | n, [] => some n
  | n, seg :: rest =>
    match lookupChild n.children seg with
    | none => none
    | some c => nodeAt c rest

/-- Embedding of `findNode` (tagTree.ts lines 54-64): `undefined` or empty
path gives the root, and any walk failure falls back to the root. -/
def findNode (root : TagNode) (path : Option Str) : TagNode :=
  match path with
  | none => root
  | some p =>
    if p.isEmpty then root
    else
      match nodeAt root ((splitOnSlash p).filter (fun s => !s.isEmpty)) with
      | some n => n
      | none => root

mutual

/-- The ids pushed by the depth-first walk inside `collectDescendantTagIds`
(tagTree.ts lines 68-73): this node's tag ids, then each child's, in map
order. -/
def dfsIds : TagNode → List Str
  | .mk _ _ children tags => tags.map Tag.id ++ dfsIdsL children

def dfsIdsL : List (Str × TagNode) → List Str
  | [] => []
  | p :: rest => dfsIds p.2 ++ dfsIdsL rest

end

/-- Embedding of `Array.from(new Set(ids))`: keep the first occurrence of each element. -/
def dedupFirst : List Str → List Str
  | [] => []
  | x :: rest => x :: dedupFirst (rest.filter (fun y => y ≠ x))
termination_by l => l.length
decreasing_by
  exact Nat.lt_succ_of_le (List.length_filter_le _ _)

/-- Embedding of `collectDescendantTagIds` (tagTree.ts lines 67-75). -/
def collectDescendantTagIds (node : TagNode) : List Str :=
  dedupFirst (dfsIds node)

mutual

/-- The document ids added by the depth-first walk inside `countUniqueDocs`
(tagTree.ts lines 79-82): `t.item_ids || []` of every tag of the subtree. -/
def dfsDocIds : TagNode → List Str
  | .mk _ _ children tags =>
    tags.flatMap (fun t => t.item_ids.getD []) ++ dfsDocIdsL children

def dfsDocIdsL : List (Str × TagNode) → List Str
  | [] => []
  | p :: rest => dfsDocIds p.2 ++ dfsDocIdsL rest

end

/-- Embedding of `countUniqueDocs` (tagTree.ts lines 77-85): the size of the
`Set` of collected ids is the length of the first-occurrence dedup. -/
def countUniqueDocs (node : TagNode) : Nat :=
  (dedupFirst (dfsDocIds node)).length

mutual

/-- A node together with all of its descendants, in depth-first order
(specification-side enumeration used to state the aggregation claims). -/
def subtreeNodes : TagNode → List TagNode
  | .mk n f c t => .mk n f c t :: subtreeNodesL c

def subtreeNodesL : List (Str × TagNode) → List TagNode
  | [] => []
  | p :: rest => subtreeNodes p.2 ++ subtreeNodesL rest

end

/-! ## DocumentLibraryTree.tsx -/

/-- The fields of `DocumentMetadata` the embedded code reads:
`identity.document_uid` and `tags?.tag_ids ?? []` (the optional chain and
default are folded into one `Option`). -/
structure Doc where
  document_uid : Str
  tag_ids : Option (List Str)
  deriving DecidableEq

/-- Type of the `documentsByTagId` prop, `Record<string, DocumentMetadata[]>`. -/
abbrev DocsMap := List (Str × List Doc)

/-- Embedding of `docsByTagId[tagId] || []`. -/
def lookupDocs : DocsMap → Str → List Doc
  | [], _ => []
  | (k, ds) :: rest, tid => if k = tid then ds else lookupDocs rest tid

/-- The shared skip-or-push step of both dedup loops
(`DocumentLibraryTree.tsx` lines 58-63 and 81-86): for each document, skip it
when its uid is in `seen`, otherwise mark the uid seen and append the
document to `out`.  Returns the updated `(seen, out)` pair. -/
def addDocs (seen : List Str) (out : List Doc) : List Doc → List Str × List Doc
  | [] => (seen, out)
  | d :: ds =>
    if d.document_uid ∈ seen then addDocs seen out ds
    else addDocs (d.document_uid :: seen) (out ++ [d]) ds

/-- The nested loops of `getDocsForTags` (lines 56-64). -/
def getDocsLoop (m : DocsMap) (seen : List Str) (out : List Doc) :
    List Str → List Doc
  | [] => out
  | tid :: rest =>
    let so := addDocs seen out (lookupDocs m tid)
    getDocsLoop m so.1 so.2 rest

/-- Embedding of `getDocsForTags` (DocumentLibraryTree.tsx lines 52-66). -/
def getDocsForTags (tagIds : List Str) (m : DocsMap) : List Doc :=
  if tagIds.isEmpty then [] else getDocsLoop m [] [] tagIds

/-- The caller-supplied `getChildren` prop is not part of the sources; per the
file's own comment (line 68, "node + descendants") it is the node's children,
in map order. -/
def getChildrenOf (n : TagNode) : List TagNode := n.children.map Prod.snd

/-- Embedding of `(cur.tagsHere ?? []).map(t => t.id).filter(Boolean)` (line 80). -/
def tagIdsOf (n : TagNode) : List Str :=
  (n.tagsHere.map Tag.id).filter (fun i => !i.isEmpty)

mutual

/-- Number of nodes of a tree (termination measure for the
`docsInSubtree` while-loop). -/
def nodeSize : TagNode → Nat
  | .mk _ _ children _ => 1 + nodeSizeL children

def nodeSizeL : List (Str × TagNode) → Nat
  | [] => 0
  | p :: rest => nodeSize p.2 + nodeSizeL rest

end

/-- Sum of sizes of the nodes on the stack. -/
def stackWeight (stack : List TagNode) : Nat :=
  (stack.map nodeSize).sum

theorem stackWeight_children (children : List (Str × TagNode)) :
    stackWeight (children.map Prod.snd) = nodeSizeL children := by
  induction children with
  | nil => rfl
  | cons p rest ih =>
    simp only [stackWeight, List.map_cons, List.sum_cons, nodeSizeL] at ih ⊢
    omega

/-- The `while (stack.length)` loop of `docsInSubtree` (lines 78-88): pop the
top node, merge its (per-node deduped) documents into `out` against the
shared `seen` set, then push its children.  The JavaScript stack keeps its
top at the array's end; here the list head is the top, so pushing the
children in order appends `children.reverse` at the head. -/
def docsInSubtreeGo (m : DocsMap) : List TagNode → List Str → List Doc → List Doc
  | [], _, out => out
  | cur :: rest, seen, out =>
    let so := addDocs seen out (getDocsForTags (tagIdsOf cur) m)
    docsInSubtreeGo m ((getChildrenOf cur).reverse ++ rest) so.1 so.2
termination_by stack => stackWeight stack
decreasing_by
  cases cur with
  | mk name full children tags =>
    have h := stackWeight_children children
    simp only [stackWeight, getChildrenOf, List.map_append, List.sum_append,
      List.map_reverse, List.sum_reverse, List.map_cons, List.sum_cons,
      TagNode.children, nodeSize] at h ⊢
    omega

/-- Embedding of `docsInSubtree` (DocumentLibraryTree.tsx lines 69-90). -/
def docsInSubtree (root : TagNode) (m : DocsMap) : List Doc :=
  docsInSubtreeGo m [root] [] []

/-- Embedding of `getPrimaryTag` (lines 43-45): `n.tagsHere?.[0]`. -/
def getPrimaryTag (n : TagNode) : Option Tag := n.tagsHere.head?

/-- The selection map prop `selectedDocs: Record<string, TagWithItemsId>`
(doc uid ↦ context tag). -/
abbrev SelMap := List (Str × Tag)

/-- Embedding of `selectedDocs[uid]` (property read on the record). -/
def selGet : SelMap → Str → Option Tag
  | [], _ => none
  | (k, t) :: rest, uid => if k = uid then some t else selGet rest uid

/-- Embedding of `next[uid] = tag`: overwrite the entry when the key is present, append it
otherwise. -/
def selSet (mm : SelMap) (uid : Str) (tag : Tag) : SelMap :=
  if (selGet mm uid).isSome then
    mm.map (fun p => if p.1 = uid then (uid, tag) else p)
  else mm ++ [(uid, tag)]

/-- Embedding of `delete next[uid]`. -/
def selErase (mm : SelMap) (uid : Str) : SelMap :=
  mm.filter (fun p => !(p.1 = uid : Bool))

/-- Embedding of `prev[uid]?.id === tagId`. -/
def selIdMatches (mm : SelMap) (uid : Str) (tagId : Str) : Bool :=
  match selGet mm uid with
  | none => false
  | some t => t.id = tagId

/-- Embedding of `subtree.filter(d => (d.tags?.tag_ids ?? []).includes(tag.id))`, the
eligible documents of a folder (lines 186-187, identically recomputed at
lines 230-231). -/
def eligibleDocsOf (node : TagNode) (m : DocsMap) : List Doc :=
  match getPrimaryTag node with
  | none => []
  | some tag =>
    (docsInSubtree node m).filter (fun d => (d.tag_ids.getD []).contains tag.id)

/-- Embedding of the `setSelectedDocs` update of `toggleFolderSelection`
(DocumentLibraryTree.tsx lines 181-207). -/
def toggleFolderSelection (node : TagNode) (m : DocsMap) (prev : SelMap) : SelMap :=
  match getPrimaryTag node with
  | none => prev
  | some tag =>
    let eligible := eligibleDocsOf node m
    if eligible.isEmpty then prev
    else if eligible.any (fun d => selIdMatches prev d.document_uid tag.id) then
      eligible.foldl
        (fun mm d =>
          if selIdMatches mm d.document_uid tag.id then
            selErase mm d.document_uid
          else mm)
        prev
    else
      eligible.foldl (fun mm d => selSet mm d.document_uid tag) prev

/-- Type of the `perTagTotals` prop, `Record<string, number>`, possibly absent. -/
abbrev TotalsMap := List (Str × Nat)

def lookupTotal : TotalsMap → Str → Option Nat
  | [], _ => none
  | (k, n) :: rest, tid => if k = tid then some n else lookupTotal rest tid

/-- Embedding of `cachedTotal` (line 232): `perTagTotals?.[tagId]`. -/
def cachedTotalOf (node : TagNode) (perTagTotals : TotalsMap) : Option Nat :=
  (getPrimaryTag node).bind (fun tag => lookupTotal perTagTotals tag.id)

/-- Embedding of `selectionTotalForTag` (lines 238-242); `isSelected` is
`selectedFolder === c.full`. -/
def selectionTotalForTag (node : TagNode) (m : DocsMap)
    (perTagTotals : TotalsMap) (selectedFolder : Option Str)
    (selectedFolderTotal : Option Nat) : Nat :=
  match getPrimaryTag node with
  | none => 0
  | some _ =>
    if selectedFolder = some node.full ∧ selectedFolderTotal ≠ none then
      selectedFolderTotal.getD 0
    else (cachedTotalOf node perTagTotals).getD (eligibleDocsOf node m).length

/-- Embedding of `selectedForTag` (lines 243-245). -/
def selectedForTag (node : TagNode) (m : DocsMap) (sel : SelMap) : Nat :=
  match getPrimaryTag node with
  | none => 0
  | some tag =>
    ((eligibleDocsOf node m).filter
      (fun d => selIdMatches sel d.document_uid tag.id)).length

/-- Embedding of `folderChecked` (line 247). -/
def folderChecked (node : TagNode) (m : DocsMap) (perTagTotals : TotalsMap)
    (selectedFolder : Option Str) (selectedFolderTotal : Option Nat)
    (sel : SelMap) : Bool :=
  decide (0 < selectionTotalForTag node m perTagTotals selectedFolder selectedFolderTotal ∧
    selectedForTag node m sel =
      selectionTotalForTag node m perTagTotals selectedFolder selectedFolderTotal)

/-- Embedding of `folderIndeterminate` (line 248). -/
def folderIndeterminate (node : TagNode) (m : DocsMap) (perTagTotals : TotalsMap)
    (selectedFolder : Option Str) (selectedFolderTotal : Option Nat)
    (sel : SelMap) : Bool :=
  decide (0 < selectedForTag node m sel ∧
    selectedForTag node m sel <
      selectionTotalForTag node m perTagTotals selectedFolder selectedFolderTotal)

/-- The document checkbox `onClick` handler (DocumentLibraryTree.tsx lines
404-413), for a row whose context tag is `tag`. -/
def docCheckboxToggle (tag : Tag) (docId : Str) (prev : SelMap) : SelMap :=
  if selIdMatches prev docId tag.id then selErase prev docId
  else selSet prev docId tag

/-! ## DocumentLibraryShareAddTab.tsx -/

/-- A pending recipient (`DocumentLibraryPendingRecipient`); only the
`target_id` identity is relevant to `handleShare`. -/
structure PendingRecipient where
  target_id : Str
  relation : Str
  deriving DecidableEq

/-- The shape of a rejected share request as read by the `catch` block
(lines 631-645): `status` is the result of the
`status ?? originalStatus ?? data?.status` coalescing, and `detail` is
`data.detail` when that is a string. -/
structure ShareFailure where
  status : Option Int
  detail : Option Str
  deriving DecidableEq

/-- The user-visible messages the `catch` block can produce (translation
keys and the server-provided detail string). -/
inductive ShareMessage where
  | forbidden (tagName : Str)
  | generic
  | fromDetail (s : Str)
  deriving DecidableEq

/-- The message computation of the `catch` block (lines 632-645). -/
def shareFailureMessage (tagName : Str) (e : ShareFailure) : ShareMessage :=
  let base : ShareMessage :=
    if e.status = some 403 then .forbidden tagName else .generic
  match e.detail with
  | some s => .fromDetail s
  | none => base

/-- The component state touched by `handleShare`: `searchQuery`,
`pendingRecipients`, `isSharing`, `shareError`, plus whether the `onShared`
callback was invoked. -/
structure ShareAddState where
  searchQuery : Str
  pendingRecipients : List PendingRecipient
  isSharing : Bool
  shareError : Option ShareMessage
  sharedCalled : Bool

/-- The sequential `await` loop (lines 621-626): the outcome of the first
failing request, `none` when every request succeeds. -/
def runShareRequests (outcome : PendingRecipient → Except ShareFailure Unit) :
    List PendingRecipient → Option ShareFailure
  | [] => none
  | r :: rest =>
    match outcome r with
    | .ok _ => runShareRequests outcome rest
    | .error e => some e

/-- Embedding of `handleShare` (DocumentLibraryShareAddTab.tsx lines
614-650) as a state transition.  The `try`/`catch` makes the handler total:
a failure is converted into a `shareError` message; only the all-success
branch clears `pendingRecipients` and `searchQuery` and calls `onShared`.
The `finally` always resets `isSharing`. -/
def handleShare (tagName : Str)
    (outcome : PendingRecipient → Except ShareFailure Unit)
    (s : ShareAddState) : ShareAddState :=
  if s.pendingRecipients.isEmpty then s
  else
    match runShareRequests outcome s.pendingRecipients with
    | none =>
      { s with pendingRecipients := [], searchQuery := [],
               shareError := none, sharedCalled := true, isSharing := false }
    | some e =>
      { s with shareError := some (shareFailureMessage tagName e),
               isSharing := false }

/-! ## Specification-side definitions -/

/-- A good path segment: non-empty and slash-free.  Every element of
`p.split("/").filter(Boolean)` has this shape. -/
def goodSeg (s : Str) : Prop := s ≠ [] ∧ '/' ∉ s

/-- The names of the nodes visited when walking down the tree along a list
of segments (used to state that a node's `full` field is the join of the
names on its path). -/
def pathNames : TagNode → List Str → Option (List Str)
  | _, [] => some []
  | n, seg :: rest =>
    match lookupChild n.children seg with
    | none => none
    | some c => (pathNames c rest).map (fun ns => TagNode.name c :: ns)

/-- Well-formedness of a (sub)tree as `buildTree` produces it.  `isTop` is
true exactly for the root: each child entry stores the child under its own
name, child keys are distinct good segments, and the child's `full` extends
the parent's (`seg` at the top level, `parent.full ++ "/" ++ seg` below). -/
inductive Wf : Bool → TagNode → Prop where
  | node (isTop : Bool) (name full : Str) (children : List (Str × TagNode))
      (tags : List Tag)
      (hname : ∀ p ∈ children, TagNode.name p.2 = p.1)
      (hfull : ∀ p ∈ children,
        TagNode.full p.2 = if isTop then p.1 else full ++ '/' :: p.1)
      (hkeys : (children.map Prod.fst).Nodup)
      (hseg : ∀ p ∈ children, goodSeg p.1)
      (hrec : ∀ p ∈ children, Wf false p.2) :
      Wf isTop (.mk name full children tags)

/-- Structural induction principle for the nested inductive `TagNode`:
to prove a property of every node it suffices to prove it for a node given
it for all of its children. -/
def TagNode.inductionOn {P : TagNode → Prop}
    (h : ∀ name full children tags, (∀ p ∈ children, P p.2) →
      P (.mk name full children tags)) : ∀ n, P n
  | .mk name full children tags =>
    h name full children tags (fun p hp => TagNode.inductionOn h p.2)
termination_by n => sizeOf n
decreasing_by
  have h1 := List.sizeOf_lt_of_mem hp
  have h2 : sizeOf p.2 < sizeOf p := by cases p; simp_arith
  simp only [TagNode.mk.sizeOf_spec]
  omega

/-! ## Concrete demonstration values for witnesses and counterexamples -/

/-- Demo tag with a non-blank `path`; its full path is `SIX/DEV`. -/
def demoTagA : Tag :=
  ⟨str ("t1"), str ("DEV"), some (str ("SIX")), some [str ("d1"), str ("d2")]⟩

/-- Demo tag with no `path`; its full path is `SIX`. -/
def demoTagB : Tag :=
  ⟨str ("t2"), str ("SIX"), none, some [str ("d2")]⟩

/-- Demo tag with a whitespace-only `path`; its full path is just `W`. -/
def demoTagW : Tag :=
  ⟨str ("t3"), str ("W"), some (str ("  ")), none⟩

def demoTags : List Tag := [demoTagA, demoTagB, demoTagW]

/-- Tag of the single-node counterexample folder. -/
def cexTag : Tag := ⟨str ("t1"), str ("a"), none, none⟩

/-- A different tag, with a different id, used as a foreign selection
context. -/
def cexOtherTag : Tag := ⟨str ("t9"), str ("b"), none, none⟩

/-- A document linked (only) to `cexTag`. -/
def cexDoc : Doc := ⟨str ("d1"), some [str ("t1")]⟩

/-- A leaf folder node holding `cexTag`. -/
def cexNode : TagNode := .mk (str ("a")) (str ("a")) [] [cexTag]

def cexDocsMap : DocsMap := [(str ("t1"), [cexDoc])]

/-- A cached per-tag total claiming 2 documents for `cexTag`, larger than
the single loaded eligible document. -/
def cexTotals : TotalsMap := [(str ("t1"), 2)]

/-- A selection map in which the one eligible document is selected under
`cexTag`. -/
def cexSel : SelMap := [(str ("d1"), cexTag)]

/-- A selection map in which the one eligible document is selected under the
unrelated `cexOtherTag`. -/
def cexSelOther : SelMap := [(str ("d1"), cexOtherTag)]

/-- Invariant of the `buildTree` fold: after processing the list
`processed`, the node found at a path holds exactly the processed tags
whose segment path is that path, in input order, and paths with no node
have no processed tag. -/
def TreeInv (processed : List Tag) (tree : TagNode) : Prop :=
  ∀ segs : List Str,
    match nodeAt tree segs with
    | some n =>
      TagNode.tagsHere n = processed.filter (fun t => decide (segsOfTag t = segs))
    | none => ∀ t ∈ processed, ¬ segsOfTag t = segs

/-! ## String lemmas -/

theorem jsTrim_eq_nil_iff (p : Str) :
    jsTrim p = [] ↔ ∀ c ∈ p, isJsWhitespace c := by
  unfold jsTrim
  rw [List.reverse_eq_nil_iff, List.dropWhile_eq_nil_iff]
  constructor
  · intro h c hc
    have hsplit : p.takeWhile isJsWhitespace ++ p.dropWhile isJsWhitespace = p :=
      List.takeWhile_append_dropWhile isJsWhitespace p
    rw [← hsplit] at hc
    rcases List.mem_append.mp hc with h1 | h2
    · exact List.mem_takeWhile_imp h1
    · exact h c (List.mem_reverse.mpr h2)
  · intro h c hc
    exact h c ((List.dropWhile_sublist _).subset (List.mem_reverse.mp hc))

/-! ## C8 — fullPath -/

/-- C8: for every tag `t`, `fullPath t` is `t.path ++ "/" ++ t.name` when
`t.path` is present and contains at least one non-whitespace character, and
is `t.name` alone when `t.path` is absent, empty, or whitespace-only (the
empty case is the vacuous instance of the whitespace-only case). -/
theorem fullPath_spec (t : Tag) :
    (t.path = none → fullPath t = t.name) ∧
    (∀ p, t.path = some p →
      ((∃ c ∈ p, ¬ isJsWhitespace c) → fullPath t = p ++ '/' :: t.name) ∧
      ((∀ c ∈ p, isJsWhitespace c) → fullPath t = t.name)) := by
  constructor
  · intro h
    simp [fullPath, h]
  · intro p hp
    constructor
    · intro hex
      have htrim : jsTrim p ≠ [] := by
        rw [Ne, jsTrim_eq_nil_iff]
        push_neg
        exact hex
      have hne : p ≠ [] := by
        rintro rfl
        rcases hex with ⟨c, hc, _⟩
        exact absurd hc (List.not_mem_nil c)
      simp [fullPath, hp, hne, htrim]
    · intro hall
      have htrim : jsTrim p = [] := (jsTrim_eq_nil_iff p).mpr hall
      simp [fullPath, hp, htrim]

/-- Witness for `fullPath_spec` at the concrete tags `demoTagA`
(path `SIX`) and `demoTagW` (whitespace-only path). -/
theorem fullPath_spec_witness :
    fullPath demoTagA = str ("SIX/DEV") ∧ fullPath demoTagW = str ("W") := by
  constructor
  · have h := ((fullPath_spec demoTagA).2 (str ("SIX")) rfl).1 (by decide)
    rw [h]
    decide
  · have h := ((fullPath_spec demoTagW).2 (str ("  ")) rfl).2 (by decide)
    rw [h]
    decide

/-! ## Dedup and DFS lemmas (C5, C6) -/

theorem mem_dedupFirst (x : Str) (l : List Str) : x ∈ dedupFirst l ↔ x ∈ l := by
  induction l using dedupFirst.induct with
  | case1 => simp [dedupFirst]
  | case2 y rest ih =>
    rw [dedupFirst]
    simp only [List.mem_cons, ih, List.mem_filter]
    constructor
    · rintro (h | ⟨h, _⟩)
      · exact Or.inl h
      · exact Or.inr h
    · rintro (h | h)
      · exact Or.inl h
      · by_cases hx : x = y
        · exact Or.inl hx
        · exact Or.inr ⟨h, by simp [hx]⟩

theorem nodup_dedupFirst (l : List Str) : (dedupFirst l).Nodup := by
  induction l using dedupFirst.induct with
  | case1 => simp [dedupFirst]
  | case2 y rest ih =>
    rw [dedupFirst]
    refine List.nodup_cons.mpr ⟨?_, ih⟩
    rw [mem_dedupFirst]
    simp

theorem dfsIds_eq_flatMap (n : TagNode) :
    dfsIds n = (subtreeNodes n).flatMap (fun m => (TagNode.tagsHere m).map Tag.id) := by
  induction n using TagNode.inductionOn with
  | _ name full children tags ih =>
    have haux : ∀ l : List (Str × TagNode),
        (∀ p ∈ l, dfsIds p.2 =
          (subtreeNodes p.2).flatMap (fun m => (TagNode.tagsHere m).map Tag.id)) →
        dfsIdsL l =
          (subtreeNodesL l).flatMap (fun m => (TagNode.tagsHere m).map Tag.id) := by
      intro l
      induction l with
      | nil => intro _; rfl
      | cons p rest ihl =>
        intro hl
        rw [dfsIdsL, subtreeNodesL, List.flatMap_append,
          ← hl p (List.mem_cons_self p rest),
          ihl (fun q hq => hl q (List.mem_cons_of_mem p hq))]
    rw [dfsIds, subtreeNodes, List.flatMap_cons, haux children ih]
    rfl

theorem dfsDocIds_eq_flatMap (n : TagNode) :
    dfsDocIds n = (subtreeNodes n).flatMap
      (fun m => (TagNode.tagsHere m).flatMap (fun t => t.item_ids.getD [])) := by
  induction n using TagNode.inductionOn with
  | _ name full children tags ih =>
    have haux : ∀ l : List (Str × TagNode),
        (∀ p ∈ l, dfsDocIds p.2 = (subtreeNodes p.2).flatMap
          (fun m => (TagNode.tagsHere m).flatMap (fun t => t.item_ids.getD []))) →
        dfsDocIdsL l = (subtreeNodesL l).flatMap
          (fun m => (TagNode.tagsHere m).flatMap (fun t => t.item_ids.getD [])) := by
      intro l
      induction l with
      | nil => intro _; rfl
      | cons p rest ihl =>
        intro hl
        rw [dfsDocIdsL, subtreeNodesL, List.flatMap_append,
          ← hl p (List.mem_cons_self p rest),
          ihl (fun q hq => hl q (List.mem_cons_of_mem p hq))]
    rw [dfsDocIds, subtreeNodes, List.flatMap_cons, haux children ih]
    rfl

/-! ## C5 — collectDescendantTagIds -/

/-- C5: for every node `n`, `collectDescendantTagIds n` is duplicate-free
and contains an id exactly when that id is the id of some tag stored in
`tagsHere` of `n` or of one of `n`'s descendants (`subtreeNodes n`
enumerates `n` and its descendants). -/
theorem collectDescendantTagIds_spec (n : TagNode) :
    (collectDescendantTagIds n).Nodup ∧
    ∀ i : Str, i ∈ collectDescendantTagIds n ↔
      ∃ m ∈ subtreeNodes n, ∃ t ∈ TagNode.tagsHere m, t.id = i := by
  constructor
  · exact nodup_dedupFirst _
  · intro i
    rw [collectDescendantTagIds, mem_dedupFirst, dfsIds_eq_flatMap]
    simp [List.mem_flatMap, List.mem_map]

/-! ## C6 — countUniqueDocs -/

/-- C6: for every node `n`, `countUniqueDocs n` is the cardinality of the
set of document ids appearing in `item_ids` of any tag stored in `n`'s
subtree, so a document linked to several tags of the subtree is counted
exactly once. -/
theorem countUniqueDocs_spec (n : TagNode) :
    countUniqueDocs n = ((subtreeNodes n).flatMap
      (fun m => (TagNode.tagsHere m).flatMap
        (fun t => t.item_ids.getD []))).toFinset.card := by
  rw [countUniqueDocs, ← dfsDocIds_eq_flatMap]
  have hnd := nodup_dedupFirst (dfsDocIds n)
  have hset : (dedupFirst (dfsDocIds n)).toFinset = (dfsDocIds n).toFinset := by
    apply Finset.ext
    intro a
    simp [List.mem_toFinset, mem_dedupFirst]
  rw [← List.toFinset_card_of_nodup hnd, hset]

/-! ## C7 — handleShare -/

/-- C7: sharing with a non-empty pending recipients list.  The `try`/`catch`
makes `handleShare` a total state transition (it never throws).  If some
request fails (the sequential loop reports `some e`), the handler sets a
user-visible error message, and leaves the pending recipients list — and the
search query — exactly as they were, in particular non-empty; the pending
list and the search query are cleared (and `onShared` invoked) exactly when
every share request succeeds. -/
theorem handleShare_spec (tagName : Str)
    (outcome : PendingRecipient → Except ShareFailure Unit)
    (s : ShareAddState) (h : s.pendingRecipients ≠ []) :
    (∀ e, runShareRequests outcome s.pendingRecipients = some e →
      (handleShare tagName outcome s).shareError =
          some (shareFailureMessage tagName e) ∧
        (handleShare tagName outcome s).pendingRecipients =
          s.pendingRecipients ∧
        (handleShare tagName outcome s).pendingRecipients ≠ [] ∧
        (handleShare tagName outcome s).searchQuery = s.searchQuery) ∧
    (runShareRequests outcome s.pendingRecipients = none →
      (handleShare tagName outcome s).pendingRecipients = [] ∧
        (handleShare tagName outcome s).searchQuery = [] ∧
        (handleShare tagName outcome s).sharedCalled = true) ∧
    (((handleShare tagName outcome s).pendingRecipients = [] ∨
        ((handleShare tagName outcome s).searchQuery = [] ∧
          s.searchQuery ≠ [])) →
      runShareRequests outcome s.pendingRecipients = none) := by
  have hne : s.pendingRecipients.isEmpty = false := by
    simpa [List.isEmpty_iff] using h
  refine ⟨?_, ?_, ?_⟩
  · intro e he
    simp [handleShare, hne, he, h]
  · intro hok
    simp [handleShare, hne, hok]
  · intro hcl
    cases hrun : runShareRequests outcome s.pendingRecipients with
    | none => rfl
    | some e =>
      exfalso
      rcases hcl with hcl | hcl
      · rw [handleShare] at hcl
        simp [hne, hrun] at hcl
        exact h hcl
      · rw [handleShare] at hcl
        simp [hne, hrun] at hcl

/-- Witness for `handleShare_spec`: one pending recipient whose request
fails with a 403 and no detail; the error message is set and the recipient
list is untouched. -/
theorem handleShare_spec_witness :
    (handleShare (str ("T")) (fun _ => Except.error ⟨some 403, none⟩)
        ⟨str ("q"), [⟨str ("u1"), str ("owner")⟩], false, none, false⟩).shareError =
        some (ShareMessage.forbidden (str ("T"))) ∧
      (handleShare (str ("T")) (fun _ => Except.error ⟨some 403, none⟩)
        ⟨str ("q"), [⟨str ("u1"), str ("owner")⟩], false, none, false⟩).pendingRecipients ≠ [] := by
  have h := handleShare_spec (str ("T")) (fun _ => Except.error ⟨some 403, none⟩)
    ⟨str ("q"), [⟨str ("u1"), str ("owner")⟩], false, none, false⟩ (by decide)
  have h1 := (h.1 ⟨some 403, none⟩ (by decide))
  exact ⟨h1.1, h1.2.2.1⟩


/-! ## Selection map lemmas (C10, C3) -/

theorem selGet_append_of_none (mm l : SelMap) (uid : Str)
    (h : selGet mm uid = none) : selGet (mm ++ l) uid = selGet l uid := by
  induction mm with
  | nil => rfl
  | cons p rest ih =>
    cases p with
    | mk k t =>
      by_cases hk : k = uid
      · simp [selGet, hk] at h
      · simp only [selGet, if_neg hk] at h
        simp only [List.cons_append, selGet, if_neg hk]
        exact ih h

theorem selGet_append_of_some (mm l : SelMap) (uid : Str) (t : Tag)
    (h : selGet mm uid = some t) : selGet (mm ++ l) uid = some t := by
  induction mm with
  | nil => simp [selGet] at h
  | cons p rest ih =>
    cases p with
    | mk k t2 =>
      by_cases hk : k = uid
      · simp only [selGet, if_pos hk] at h
        simp only [List.cons_append, selGet, if_pos hk]
        exact h
      · simp only [selGet, if_neg hk] at h
        simp only [List.cons_append, selGet, if_neg hk]
        exact ih h

theorem selGet_selErase (mm : SelMap) (uid u : Str) :
    selGet (selErase mm uid) u = if u = uid then none else selGet mm u := by
  induction mm with
  | nil => simp [selErase, selGet]
  | cons p rest ih =>
    cases p with
    | mk k t =>
      by_cases hk : k = uid
      · subst hk
        have hdrop : selErase ((k, t) :: rest) k = selErase rest k := by
          simp [selErase, List.filter_cons]
        rw [hdrop, ih]
        by_cases hu : u = k
        · rw [if_pos hu, if_pos hu]
        · rw [if_neg hu, if_neg hu]
          have hku : ¬ k = u := fun hh => hu hh.symm
          simp [selGet, hku]
      · have hkeep : selErase ((k, t) :: rest) uid = (k, t) :: selErase rest uid := by
          simp [selErase, List.filter_cons, hk]
        rw [hkeep]
        by_cases hku : k = u
        · subst hku
          simp [selGet, fun hh : k = uid => hk hh]
        · simp [selGet, hku, ih]

theorem selGet_map_overwrite_ne (mm : SelMap) (uid u : Str) (tag : Tag)
    (h : ¬ u = uid) :
    selGet (mm.map (fun p => if p.1 = uid then (uid, tag) else p)) u = selGet mm u := by
  induction mm with
  | nil => rfl
  | cons p rest ih =>
    cases p with
    | mk k t =>
      by_cases hk : k = uid
      · subst hk
        simp only [List.map_cons, if_pos rfl]
        have h1 : ¬ k = u := fun hh => h hh.symm
        simp [selGet, h1, ih]
      · simp only [List.map_cons]
        have heq : (if (k, t).1 = uid then (uid, tag) else (k, t)) = (k, t) := by
          simp [hk]
        rw [heq]
        by_cases hku : k = u
        · simp [selGet, hku]
        · simp [selGet, hku, ih]

theorem selGet_map_overwrite_hit (mm : SelMap) (uid : Str) (tag : Tag)
    (h : (selGet mm uid).isSome = true) :
    selGet (mm.map (fun p => if p.1 = uid then (uid, tag) else p)) uid = some tag := by
  induction mm with
  | nil => simp [selGet] at h
  | cons p rest ih =>
    cases p with
    | mk k t =>
      by_cases hk : k = uid
      · subst hk
        have heq : (if (k, t).1 = k then (k, tag) else (k, t)) = (k, tag) := by
          simp
        simp only [List.map_cons, heq]
        simp [selGet]
      · simp only [selGet, if_neg hk] at h
        simp only [List.map_cons]
        have heq : (if (k, t).1 = uid then (uid, tag) else (k, t)) = (k, t) := by
          simp [hk]
        rw [heq]
        simp [selGet, hk, ih h]

theorem selGet_selSet (mm : SelMap) (uid u : Str) (tag : Tag) :
    selGet (selSet mm uid tag) u = if u = uid then some tag else selGet mm u := by
  rw [selSet]
  by_cases hs : (selGet mm uid).isSome
  · rw [if_pos hs]
    by_cases hu : u = uid
    · subst hu
      rw [if_pos rfl]
      exact selGet_map_overwrite_hit mm u tag hs
    · rw [if_neg hu]
      exact selGet_map_overwrite_ne mm uid u tag hu
  · rw [if_neg hs]
    have hnone : selGet mm uid = none := by
      cases he : selGet mm uid with
      | none => rfl
      | some t2 => rw [he] at hs; simp at hs
    by_cases hu : u = uid
    · subst hu
      rw [if_pos rfl, selGet_append_of_none mm _ u hnone]
      simp [selGet]
    · rw [if_neg hu]
      cases he : selGet mm u with
      | some t2 => exact selGet_append_of_some mm _ u t2 he
      | none =>
        rw [selGet_append_of_none mm _ u he]
        have huid : ¬ uid = u := fun hh => hu hh.symm
        simp [selGet, huid, he]

/-! ## C10 — document checkbox click -/

/-- C10 (amended): a single click of the document checkbox changes at most
the selection-map entry of that document's uid; and two successive clicks
return the selection map (extensionally, as a record) to its original value
whenever the document's original entry is absent or is the context tag
itself.  (When the document was selected under a different tag, the claim's
round-trip fails: the first click overwrites the entry with the context tag
and the second deletes it — see the counterexample.) -/
theorem docCheckboxToggle_spec (tag : Tag) (docId : Str) (prev : SelMap) :
    (∀ uid, uid ≠ docId →
      selGet (docCheckboxToggle tag docId prev) uid = selGet prev uid) ∧
    (selGet prev docId = none ∨ selGet prev docId = some tag →
      ∀ uid,
        selGet (docCheckboxToggle tag docId (docCheckboxToggle tag docId prev)) uid =
          selGet prev uid) := by
  constructor
  · intro uid huid
    rw [docCheckboxToggle]
    by_cases hm : selIdMatches prev docId tag.id = true
    · rw [if_pos hm, selGet_selErase, if_neg huid]
    · rw [if_neg hm, selGet_selSet, if_neg huid]
  · intro hstart uid
    rcases hstart with h0 | h0
    · have hm1 : ¬ selIdMatches prev docId tag.id = true := by
        simp [selIdMatches, h0]
      have hfirst : docCheckboxToggle tag docId prev = selSet prev docId tag := by
        rw [docCheckboxToggle, if_neg hm1]
      have hget : selGet (selSet prev docId tag) docId = some tag := by
        rw [selGet_selSet, if_pos rfl]
      have hm2 : selIdMatches (selSet prev docId tag) docId tag.id = true := by
        simp [selIdMatches, hget]
      rw [hfirst, docCheckboxToggle, if_pos hm2, selGet_selErase]
      by_cases hu : uid = docId
      · rw [if_pos hu, hu, h0]
      · rw [if_neg hu, selGet_selSet, if_neg hu]
    · have hm1 : selIdMatches prev docId tag.id = true := by
        simp [selIdMatches, h0]
      have hfirst : docCheckboxToggle tag docId prev = selErase prev docId := by
        rw [docCheckboxToggle, if_pos hm1]
      have hget : selGet (selErase prev docId) docId = none := by
        rw [selGet_selErase, if_pos rfl]
      have hm2 : ¬ selIdMatches (selErase prev docId) docId tag.id = true := by
        simp [selIdMatches, hget]
      rw [hfirst, docCheckboxToggle, if_neg hm2, selGet_selSet]
      by_cases hu : uid = docId
      · rw [if_pos hu, hu, h0]
      · rw [if_neg hu, selGet_selErase, if_neg hu]

/-- Counterexample for C10 as stated: the document `d1` is initially
selected under `cexOtherTag` (a different tag than the row's context tag
`cexTag`); after two successive clicks its entry is gone, so the selection
map is not returned to its original value. -/
theorem docCheckboxToggle_cex :
    selGet (docCheckboxToggle cexTag (str ("d1"))
        (docCheckboxToggle cexTag (str ("d1")) cexSelOther)) (str ("d1")) = none ∧
      selGet cexSelOther (str ("d1")) = some cexOtherTag ∧
      cexOtherTag.id ≠ cexTag.id := by
  refine ⟨?_, by decide, by decide⟩
  decide

/-- Witness for `docCheckboxToggle_spec`: starting from the empty selection
map (entry absent), a double click of `d1` restores the empty map. -/
theorem docCheckboxToggle_spec_witness :
    selGet (docCheckboxToggle cexTag (str ("d1"))
        (docCheckboxToggle cexTag (str ("d1")) [])) (str ("d1")) = none := by
  have h := (docCheckboxToggle_spec cexTag (str ("d1")) []).2 (Or.inl rfl) (str ("d1"))
  rw [h]
  rfl

/-! ## C9 — per-uid dedup of getDocsForTags and docsInSubtree -/

theorem addDocs_inv (l : List Doc) : ∀ seen out,
    (out.map Doc.document_uid).Nodup → (∀ d ∈ out, d.document_uid ∈ seen) →
    ((addDocs seen out l).2.map Doc.document_uid).Nodup ∧
      (∀ d ∈ (addDocs seen out l).2, d.document_uid ∈ (addDocs seen out l).1) ∧
      (∀ u ∈ seen, u ∈ (addDocs seen out l).1) := by
  induction l with
  | nil =>
    intro seen out h1 h2
    exact ⟨h1, h2, fun u hu => hu⟩
  | cons d ds ih =>
    intro seen out h1 h2
    rw [addDocs]
    by_cases hd : d.document_uid ∈ seen
    · rw [if_pos hd]
      exact ih seen out h1 h2
    · rw [if_neg hd]
      have h1' : ((out ++ [d]).map Doc.document_uid).Nodup := by
        rw [List.map_append, List.nodup_append]
        refine ⟨h1, by simp, ?_⟩
        intro u hu hu2
        simp only [List.map_cons, List.map_nil, List.mem_cons,
          List.not_mem_nil, or_false] at hu2
        rcases List.mem_map.mp hu with ⟨d2, hd2, hud⟩
        refine hd ?_
        rw [← hu2, ← hud]
        exact h2 d2 hd2
      have h2' : ∀ d2 ∈ out ++ [d], d2.document_uid ∈ d.document_uid :: seen := by
        intro d2 hd2
        rcases List.mem_append.mp hd2 with h | h
        · exact List.mem_cons_of_mem _ (h2 d2 h)
        · simp only [List.mem_singleton] at h
          subst h
          exact List.mem_cons_self _ _
      rcases ih (d.document_uid :: seen) (out ++ [d]) h1' h2' with ⟨ha, hb, hc⟩
      exact ⟨ha, hb, fun u hu => hc u (List.mem_cons_of_mem _ hu)⟩

theorem getDocsLoop_nodup (tids : List Str) : ∀ (m : DocsMap) seen out,
    (out.map Doc.document_uid).Nodup → (∀ d ∈ out, d.document_uid ∈ seen) →
    ((getDocsLoop m seen out tids).map Doc.document_uid).Nodup := by
  induction tids with
  | nil =>
    intro m seen out h1 _
    exact h1
  | cons tid rest ih =>
    intro m seen out h1 h2
    rw [getDocsLoop]
    rcases addDocs_inv (lookupDocs m tid) seen out h1 h2 with ⟨ha, hb, _⟩
    exact ih m _ _ ha hb

/-- Deduplication inside `getDocsForTags`: the returned uids are distinct. -/
theorem getDocsForTags_nodup (tagIds : List Str) (m : DocsMap) :
    ((getDocsForTags tagIds m).map Doc.document_uid).Nodup := by
  rw [getDocsForTags]
  by_cases h : tagIds.isEmpty
  · rw [if_pos h]
    exact List.nodup_nil
  · rw [if_neg h]
    exact getDocsLoop_nodup tagIds m [] [] List.nodup_nil (by simp)

theorem docsInSubtreeGo_nodup (m : DocsMap) (stack : List TagNode)
    (seen : List Str) (out : List Doc)
    (h1 : (out.map Doc.document_uid).Nodup)
    (h2 : ∀ d ∈ out, d.document_uid ∈ seen) :
    ((docsInSubtreeGo m stack seen out).map Doc.document_uid).Nodup := by
  induction stack, seen, out using docsInSubtreeGo.induct m with
  | case1 seen out =>
    rw [docsInSubtreeGo]
    exact h1
  | case2 cur rest seen out so ih =>
    rw [docsInSubtreeGo]
    rcases addDocs_inv (getDocsForTags (tagIdsOf cur) m) seen out h1 h2 with
      ⟨ha, hb, _⟩
    exact ih ha hb

/-- C9: for every tag-id-to-documents map, list of tag ids and tree node,
`getDocsForTags` and `docsInSubtree` return lists in which each document
uid appears at most once (their uid projections are duplicate-free), even
when a document is linked to several of the given tags or appears under
several nodes of the subtree.  (`docsInSubtree`'s `getChildren` parameter
is instantiated with the node's own children, per the function's
"node + descendants" contract.) -/
theorem docs_dedup_spec (tagIds : List Str) (m : DocsMap) (n : TagNode) :
    ((getDocsForTags tagIds m).map Doc.document_uid).Nodup ∧
    ((docsInSubtree n m).map Doc.document_uid).Nodup := by
  refine ⟨getDocsForTags_nodup tagIds m, ?_⟩
  exact docsInSubtreeGo_nodup m [n] [] [] List.nodup_nil (by simp)

/-! ## C3 — toggleFolderSelection -/

theorem selIdMatches_selErase (mm : SelMap) (u uid tid : Str) :
    selIdMatches (selErase mm u) uid tid =
      if uid = u then false else selIdMatches mm uid tid := by
  rw [selIdMatches, selGet_selErase]
  by_cases h : uid = u
  · rw [if_pos h, if_pos h]
  · rw [if_neg h, if_neg h, selIdMatches]

theorem selGet_foldl_erase (tagId : Str) (eligible : List Doc) :
    ∀ (prev : SelMap) (uid : Str),
    selGet (eligible.foldl (fun mm d =>
        if selIdMatches mm d.document_uid tagId then selErase mm d.document_uid
        else mm) prev) uid =
      if (∃ d ∈ eligible, d.document_uid = uid) ∧
          selIdMatches prev uid tagId = true then none
      else selGet prev uid := by
  induction eligible with
  | nil =>
    intro prev uid
    simp
  | cons d ds ih =>
    intro prev uid
    rw [List.foldl_cons, ih]
    by_cases hm : selIdMatches prev d.document_uid tagId = true
    · rw [if_pos hm]
      by_cases hu : uid = d.document_uid
      · have hg : selGet (selErase prev d.document_uid) uid = none := by
          rw [selGet_selErase, if_pos hu]
        have hm2 : selIdMatches (selErase prev d.document_uid) uid tagId = false := by
          rw [selIdMatches_selErase, if_pos hu]
        rw [if_neg (fun hc => by simp [hm2] at hc), hg,
          if_pos ⟨⟨d, List.mem_cons_self d ds, hu.symm⟩, by rw [hu]; exact hm⟩]
      · have hg : selGet (selErase prev d.document_uid) uid = selGet prev uid := by
          rw [selGet_selErase, if_neg hu]
        have hm2 : selIdMatches (selErase prev d.document_uid) uid tagId =
            selIdMatches prev uid tagId := by
          rw [selIdMatches_selErase, if_neg hu]
        rw [hm2, hg]
        have hiff : (∃ d2 ∈ ds, d2.document_uid = uid) ↔
            ∃ d2 ∈ d :: ds, d2.document_uid = uid := by
          constructor
          · rintro ⟨d2, h2, he⟩
            exact ⟨d2, List.mem_cons_of_mem d h2, he⟩
          · rintro ⟨d2, h2, he⟩
            rcases List.mem_cons.mp h2 with h2 | h2
            · exact absurd (h2 ▸ he : d.document_uid = uid)
                (fun hh => hu hh.symm)
            · exact ⟨d2, h2, he⟩
        by_cases hc : (∃ d2 ∈ ds, d2.document_uid = uid) ∧
            selIdMatches prev uid tagId = true
        · rw [if_pos hc, if_pos ⟨hiff.mp hc.1, hc.2⟩]
        · rw [if_neg hc, if_neg (fun hc2 => hc ⟨hiff.mpr hc2.1, hc2.2⟩)]
    · rw [if_neg hm]
      by_cases hu : uid = d.document_uid
      · have hmf : ¬ selIdMatches prev uid tagId = true := by
          rw [hu]; exact hm
        rw [if_neg (fun hc => hmf hc.2), if_neg (fun hc => hmf hc.2)]
      · have hiff : (∃ d2 ∈ ds, d2.document_uid = uid) ↔
            ∃ d2 ∈ d :: ds, d2.document_uid = uid := by
          constructor
          · rintro ⟨d2, h2, he⟩
            exact ⟨d2, List.mem_cons_of_mem d h2, he⟩
          · rintro ⟨d2, h2, he⟩
            rcases List.mem_cons.mp h2 with h2 | h2
            · exact absurd (h2 ▸ he : d.document_uid = uid)
                (fun hh => hu hh.symm)
            · exact ⟨d2, h2, he⟩
        by_cases hc : (∃ d2 ∈ ds, d2.document_uid = uid) ∧
            selIdMatches prev uid tagId = true
        · rw [if_pos hc, if_pos ⟨hiff.mp hc.1, hc.2⟩]
        · rw [if_neg hc, if_neg (fun hc2 => hc ⟨hiff.mpr hc2.1, hc2.2⟩)]

theorem selGet_foldl_set (tag : Tag) (eligible : List Doc) :
    ∀ (prev : SelMap) (uid : Str),
    selGet (eligible.foldl (fun mm d => selSet mm d.document_uid tag) prev) uid =
      if ∃ d ∈ eligible, d.document_uid = uid then some tag
      else selGet prev uid := by
  induction eligible with
  | nil =>
    intro prev uid
    simp
  | cons d ds ih =>
    intro prev uid
    rw [List.foldl_cons, ih]
    by_cases hc : ∃ d2 ∈ ds, d2.document_uid = uid
    · rw [if_pos hc, if_pos (by
        rcases hc with ⟨d2, h2, he⟩
        exact ⟨d2, List.mem_cons_of_mem d h2, he⟩)]
    · rw [if_neg hc]
      by_cases hu : uid = d.document_uid
      · rw [selGet_selSet, if_pos hu,
          if_pos ⟨d, List.mem_cons_self d ds, hu.symm⟩]
      · rw [selGet_selSet, if_neg hu, if_neg (by
          rintro ⟨d2, h2, he⟩
          rcases List.mem_cons.mp h2 with h2 | h2
          · exact hu (h2 ▸ he : d.document_uid = uid).symm
          · exact hc ⟨d2, h2, he⟩)]

/-- Evaluation helper: on a leaf node the `docsInSubtree` loop runs exactly
one iteration. -/
theorem docsInSubtree_leaf (n : TagNode) (m : DocsMap)
    (hleaf : TagNode.children n = []) :
    docsInSubtree n m = (addDocs [] [] (getDocsForTags (tagIdsOf n) m)).2 := by
  rw [docsInSubtree, docsInSubtreeGo]
  have h : (getChildrenOf n).reverse ++ ([] : List TagNode) = [] := by
    simp [getChildrenOf, hleaf]
  rw [h, docsInSubtreeGo]

/-- C3 (amended): for a folder whose primary tag is `tag` and whose subtree
contains at least one eligible document.  If at least one eligible document
is currently selected under `tag`, the toggle removes exactly the entries
of eligible documents selected under `tag` (entries for other documents,
and for documents selected under a different tag, are unchanged).
Otherwise it maps every eligible document to `tag` — overwriting the
entries of eligible documents that were selected under a different tag
(see the counterexample) — and entries for non-eligible documents are
unchanged. -/
theorem toggleFolderSelection_spec (node : TagNode) (m : DocsMap)
    (prev : SelMap) (tag : Tag) (htag : getPrimaryTag node = some tag)
    (hne : eligibleDocsOf node m ≠ []) :
    ((∃ d ∈ eligibleDocsOf node m,
        selIdMatches prev d.document_uid tag.id = true) →
      ∀ uid, selGet (toggleFolderSelection node m prev) uid =
        if (∃ d ∈ eligibleDocsOf node m, d.document_uid = uid) ∧
            selIdMatches prev uid tag.id = true then none
        else selGet prev uid) ∧
    ((∀ d ∈ eligibleDocsOf node m,
        ¬ selIdMatches prev d.document_uid tag.id = true) →
      ∀ uid, selGet (toggleFolderSelection node m prev) uid =
        if ∃ d ∈ eligibleDocsOf node m, d.document_uid = uid then some tag
        else selGet prev uid) := by
  have hempty : (eligibleDocsOf node m).isEmpty = false := by
    rw [Bool.eq_false_iff, Ne, List.isEmpty_iff]
    exact hne
  constructor
  · intro hex uid
    have hany : (eligibleDocsOf node m).any
        (fun d => selIdMatches prev d.document_uid tag.id) = true := by
      rw [List.any_eq_true]
      rcases hex with ⟨d, hd, hh⟩
      exact ⟨d, hd, hh⟩
    rw [toggleFolderSelection, htag]
    simp only [hempty, Bool.false_eq_true, if_false, hany, if_true]
    exact selGet_foldl_erase tag.id (eligibleDocsOf node m) prev uid
  · intro hall uid
    have hany : (eligibleDocsOf node m).any
        (fun d => selIdMatches prev d.document_uid tag.id) = false := by
      rw [List.any_eq_false]
      intro d hd
      simp [hall d hd]
    rw [toggleFolderSelection, htag]
    simp only [hempty, Bool.false_eq_true, if_false, hany, Bool.false_eq_true,
      if_false]
    exact selGet_foldl_set tag (eligibleDocsOf node m) prev uid

/-- Counterexample for C3 as stated: document `d1` is eligible in the
folder of `cexTag` but selected under the different tag `cexOtherTag`; no
eligible document is selected under `cexTag`, so the select branch runs and
overwrites `d1`'s entry with `cexTag` — the entry of a document "selected
under a different tag" is changed. -/
theorem toggleFolderSelection_cex :
    selGet cexSelOther (str ("d1")) = some cexOtherTag ∧
      cexOtherTag.id ≠ cexTag.id ∧
      selGet (toggleFolderSelection cexNode cexDocsMap cexSelOther)
        (str ("d1")) = some cexTag := by
  refine ⟨by decide, by decide, ?_⟩
  have hsub : docsInSubtree cexNode cexDocsMap = [cexDoc] := by
    rw [docsInSubtree_leaf cexNode cexDocsMap rfl]
    decide
  rw [toggleFolderSelection]
  show selGet (match getPrimaryTag cexNode with
    | none => cexSelOther
    | some tag => _) (str ("d1")) = some cexTag
  rw [show getPrimaryTag cexNode = some cexTag from rfl]
  simp only [eligibleDocsOf, show getPrimaryTag cexNode = some cexTag from rfl,
    hsub]
  decide

/-- Witness for `toggleFolderSelection_spec`: with `d1` selected under
`cexTag` itself, the toggle removes that entry. -/
theorem toggleFolderSelection_spec_witness :
    selGet (toggleFolderSelection cexNode cexDocsMap cexSel) (str ("d1")) =
      none := by
  have hsub : docsInSubtree cexNode cexDocsMap = [cexDoc] := by
    rw [docsInSubtree_leaf cexNode cexDocsMap rfl]
    decide
  have helig : eligibleDocsOf cexNode cexDocsMap = [cexDoc] := by
    rw [eligibleDocsOf, show getPrimaryTag cexNode = some cexTag from rfl, hsub]
    decide
  have h := (toggleFolderSelection_spec cexNode cexDocsMap cexSel cexTag rfl
    (by rw [helig]; decide)).1
    (by rw [helig]; exact ⟨cexDoc, List.mem_singleton.mpr rfl, by decide⟩)
    (str ("d1"))
  rw [h, if_pos]
  constructor
  · rw [helig]
    exact ⟨cexDoc, List.mem_singleton.mpr rfl, by decide⟩
  · decide

/-! ## C2 — folder tri-state checkbox -/

theorem length_filter_eq_iff (l : List Doc) (q : Doc → Bool) :
    ((l.filter q).length = l.length) ↔ ∀ d ∈ l, q d = true := by
  rw [← List.countP_eq_length_filter, List.countP_eq_length]

theorem length_filter_pos_iff (l : List Doc) (q : Doc → Bool) :
    (0 < (l.filter q).length) ↔ ∃ d ∈ l, q d = true := by
  rw [List.length_pos, Ne, List.filter_eq_nil_iff]
  push_neg
  simp

/-- C2 (amended): for any folder with a primary tag, the checkbox is never
both checked and indeterminate; and whenever the code's selection total for
the folder's tag equals the number of (loaded) eligible documents of the
subtree — in particular when no cached `perTagTotals` entry or
`selectedFolderTotal` overrides it — the checkbox is checked exactly when
the selection total is positive and every eligible document is selected
under the tag, and indeterminate exactly when some but not all eligible
documents are selected under the tag.  (When a cached total exceeds the
number of loaded eligible documents the original biconditionals fail, see
the counterexample.) -/
theorem folderTriState_spec (node : TagNode) (m : DocsMap)
    (ptt : TotalsMap) (sf : Option Str) (sft : Option Nat) (sel : SelMap)
    (tag : Tag) (htag : getPrimaryTag node = some tag) :
    (¬ (folderChecked node m ptt sf sft sel = true ∧
        folderIndeterminate node m ptt sf sft sel = true)) ∧
    (selectionTotalForTag node m ptt sf sft = (eligibleDocsOf node m).length →
      (folderChecked node m ptt sf sft sel = true ↔
        0 < selectionTotalForTag node m ptt sf sft ∧
        ∀ d ∈ eligibleDocsOf node m,
          selIdMatches sel d.document_uid tag.id = true) ∧
      (folderIndeterminate node m ptt sf sft sel = true ↔
        (∃ d ∈ eligibleDocsOf node m,
          selIdMatches sel d.document_uid tag.id = true) ∧
        ¬ ∀ d ∈ eligibleDocsOf node m,
          selIdMatches sel d.document_uid tag.id = true)) := by
  have hsel : selectedForTag node m sel =
      ((eligibleDocsOf node m).filter
        (fun d => selIdMatches sel d.document_uid tag.id)).length := by
    rw [selectedForTag, htag]
  constructor
  · simp only [folderChecked, folderIndeterminate, decide_eq_true_eq]
    rintro ⟨⟨h1, h2⟩, h3, h4⟩
    omega
  · intro hTot
    constructor
    · rw [folderChecked, decide_eq_true_eq, hsel, hTot]
      rw [length_filter_eq_iff]
    · rw [folderIndeterminate, decide_eq_true_eq, hsel, hTot]
      rw [length_filter_pos_iff]
      constructor
      · rintro ⟨h1, h2⟩
        refine ⟨h1, ?_⟩
        rw [← length_filter_eq_iff]
        omega
      · rintro ⟨h1, h2⟩
        refine ⟨h1, ?_⟩
        rw [← length_filter_eq_iff] at h2
        have hle := List.length_filter_le
          (fun d => selIdMatches sel d.document_uid tag.id) (eligibleDocsOf node m)
        omega

/-- Counterexample for C2 as stated: the folder of `cexTag` has one loaded
eligible document, which is selected under the tag, but a cached per-tag
total of 2 makes the selection total 2: the checkbox is not checked (though
the selection total is positive and every eligible document is selected)
and is indeterminate (though not "some but not all" are selected). -/
theorem folderTriState_cex :
    folderChecked cexNode cexDocsMap cexTotals none none cexSel = false ∧
      folderIndeterminate cexNode cexDocsMap cexTotals none none cexSel = true ∧
      0 < selectionTotalForTag cexNode cexDocsMap cexTotals none none ∧
      ∀ d ∈ eligibleDocsOf cexNode cexDocsMap,
        selIdMatches cexSel d.document_uid cexTag.id = true := by
  have hsub : docsInSubtree cexNode cexDocsMap = [cexDoc] := by
    rw [docsInSubtree_leaf cexNode cexDocsMap rfl]
    decide
  have helig : eligibleDocsOf cexNode cexDocsMap = [cexDoc] := by
    rw [eligibleDocsOf, show getPrimaryTag cexNode = some cexTag from rfl, hsub]
    decide
  have htot : selectionTotalForTag cexNode cexDocsMap cexTotals none none = 2 :=
    rfl
  have hsel : selectedForTag cexNode cexDocsMap cexSel = 1 := by
    have h1 : selectedForTag cexNode cexDocsMap cexSel =
        ((eligibleDocsOf cexNode cexDocsMap).filter
          (fun d => selIdMatches cexSel d.document_uid cexTag.id)).length := by
      rw [selectedForTag, show getPrimaryTag cexNode = some cexTag from rfl]
    rw [h1, helig]
    decide
  refine ⟨?_, ?_, by rw [htot]; decide, ?_⟩
  · rw [folderChecked, htot, hsel]
    decide
  · rw [folderIndeterminate, htot, hsel]
    decide
  · rw [helig]
    decide

/-- Witness for `folderTriState_spec`: with no cached totals the selection
total is the single eligible document, which is selected under the tag, so
the folder checkbox is checked and not indeterminate. -/
theorem folderTriState_spec_witness :
    folderChecked cexNode cexDocsMap [] none none cexSel = true ∧
      folderIndeterminate cexNode cexDocsMap [] none none cexSel = false := by
  have hsub : docsInSubtree cexNode cexDocsMap = [cexDoc] := by
    rw [docsInSubtree_leaf cexNode cexDocsMap rfl]
    decide
  have helig : eligibleDocsOf cexNode cexDocsMap = [cexDoc] := by
    rw [eligibleDocsOf, show getPrimaryTag cexNode = some cexTag from rfl, hsub]
    decide
  have hTot : selectionTotalForTag cexNode cexDocsMap [] none none =
      (eligibleDocsOf cexNode cexDocsMap).length := by
    rw [selectionTotalForTag, show getPrimaryTag cexNode = some cexTag from rfl]
    rw [if_neg (by simp)]
    rfl
  have h := (folderTriState_spec cexNode cexDocsMap [] none none cexSel cexTag
    rfl).2 hTot
  constructor
  · rw [h.1]
    refine ⟨?_, ?_⟩
    · rw [hTot, helig]
      decide
    · rw [helig]
      decide
  · rw [Bool.eq_false_iff, Ne, h.2]
    rintro ⟨h1, h2⟩
    refine h2 ?_
    rw [helig]
    decide

/-! ## Split/join lemmas (C1, C4) -/

theorem splitOnSlash_ne_nil (s : Str) : splitOnSlash s ≠ [] := by
  cases s with
  | nil => simp [splitOnSlash]
  | cons c cs =>
    rw [splitOnSlash]
    cases h : splitOnSlash cs with
    | nil => simp
    | cons a rest =>
      by_cases hc : c = '/' <;> simp [hc]

theorem splitOnSlash_cons_eq (c : Char) (cs : Str) (a : Str) (rest : List Str)
    (h : splitOnSlash cs = a :: rest) :
    splitOnSlash (c :: cs) =
      if c = '/' then [] :: a :: rest else (c :: a) :: rest := by
  rw [splitOnSlash, h]

theorem mem_splitOnSlash_no_slash (s : Str) :
    ∀ seg ∈ splitOnSlash s, '/' ∉ seg := by
  induction s with
  | nil =>
    intro seg hseg
    simp only [splitOnSlash, List.mem_singleton] at hseg
    subst hseg
    simp
  | cons c cs ih =>
    cases h : splitOnSlash cs with
    | nil => exact absurd h (splitOnSlash_ne_nil cs)
    | cons a rest =>
      rw [splitOnSlash_cons_eq c cs a rest h]
      rw [h] at ih
      by_cases hc : c = '/'
      · rw [if_pos hc]
        intro seg hseg
        rcases List.mem_cons.mp hseg with h1 | h2
        · subst h1
          simp
        · exact ih seg h2
      · rw [if_neg hc]
        intro seg hseg
        rcases List.mem_cons.mp hseg with h1 | h2
        · subst h1
          intro hmem
          rcases List.mem_cons.mp hmem with h3 | h4
          · exact hc h3.symm
          · exact ih a (List.mem_cons_self a rest) h4
        · exact ih seg (List.mem_cons_of_mem a h2)

theorem splitOnSlash_no_slash (s : Str) (h : '/' ∉ s) : splitOnSlash s = [s] := by
  induction s with
  | nil => rfl
  | cons c cs ih =>
    have hc : ¬ c = '/' := fun hh => h (hh ▸ List.mem_cons_self c cs)
    have hcs : '/' ∉ cs := fun hh => h (List.mem_cons_of_mem c hh)
    rw [splitOnSlash, ih hcs]
    simp [hc]

theorem splitOnSlash_append (s t : Str) (h : '/' ∉ s) :
    splitOnSlash (s ++ '/' :: t) = s :: splitOnSlash t := by
  induction s with
  | nil =>
    rw [List.nil_append, splitOnSlash]
    cases ht : splitOnSlash t with
    | nil => exact absurd ht (splitOnSlash_ne_nil t)
    | cons a rest => simp
  | cons c cs ih =>
    have hc : ¬ c = '/' := fun hh => h (hh ▸ List.mem_cons_self c cs)
    have hcs : '/' ∉ cs := fun hh => h (List.mem_cons_of_mem c hh)
    rw [List.cons_append, splitOnSlash, ih hcs]
    simp [hc]

theorem joinSlash_append_singleton (pre : List Str) (s : Str) (h : pre ≠ []) :
    joinSlash (pre ++ [s]) = joinSlash pre ++ '/' :: s := by
  induction pre with
  | nil => exact absurd rfl h
  | cons a rest ih =>
    cases rest with
    | nil => rfl
    | cons b rest2 =>
      have ih2 := ih (by simp)
      show a ++ '/' :: joinSlash (b :: rest2 ++ [s]) =
        (a ++ '/' :: joinSlash (b :: rest2)) ++ '/' :: s
      rw [ih2]
      simp

theorem joinSlash_ne_nil (segs : List Str) (h : segs ≠ [])
    (h2 : ∀ s ∈ segs, s ≠ []) : joinSlash segs ≠ [] := by
  cases segs with
  | nil => exact absurd rfl h
  | cons a rest =>
    cases rest with
    | nil => exact h2 a (by simp)
    | cons b r2 =>
      show a ++ '/' :: joinSlash (b :: r2) ≠ []
      simp

theorem split_join (segs : List Str) (h : ∀ s ∈ segs, goodSeg s) :
    (splitOnSlash (joinSlash segs)).filter (fun s => !s.isEmpty) = segs := by
  induction segs with
  | nil => rfl
  | cons a rest ih =>
    rcases h a (by simp) with ⟨hne, hns⟩
    have hemp : (!a.isEmpty) = true := by
      simp [List.isEmpty_iff]
      exact hne
    cases rest with
    | nil =>
      rw [show joinSlash [a] = a from rfl, splitOnSlash_no_slash a hns,
        List.filter_cons, if_pos hemp]
      rfl
    | cons b r2 =>
      have hrest : ∀ s ∈ b :: r2, goodSeg s :=
        fun s hs => h s (List.mem_cons_of_mem a hs)
      rw [show joinSlash (a :: b :: r2) = a ++ '/' :: joinSlash (b :: r2) from
        rfl]
      rw [splitOnSlash_append a _ hns, List.filter_cons, if_pos hemp, ih hrest]

/-! ## Children map lemmas (C1, C4) -/

theorem lookupChild_replaceChild_self (l : List (Str × TagNode)) (seg : Str)
    (c c2 : TagNode) (h : lookupChild l seg = some c) :
    lookupChild (replaceChild l seg c2) seg = some c2 := by
  induction l with
  | nil => simp [lookupChild] at h
  | cons p rest ih =>
    cases p with
    | mk k d =>
      by_cases hk : k = seg
      · rw [replaceChild, if_pos hk, lookupChild, if_pos hk]
      · rw [lookupChild, if_neg hk] at h
        rw [replaceChild, if_neg hk, lookupChild, if_neg hk]
        exact ih h

theorem lookupChild_replaceChild_ne (l : List (Str × TagNode)) (seg seg' : Str)
    (c2 : TagNode) (h : seg' ≠ seg) :
    lookupChild (replaceChild l seg c2) seg' = lookupChild l seg' := by
  induction l with
  | nil => rfl
  | cons p rest ih =>
    cases p with
    | mk k d =>
      by_cases hk : k = seg
      · rw [replaceChild, if_pos hk, lookupChild, lookupChild,
          if_neg (fun hh : k = seg' => h (hh ▸ hk ▸ rfl))]
        rw [if_neg (fun hh : k = seg' => h (hh ▸ hk ▸ rfl))]
      · rw [replaceChild, if_neg hk]
        by_cases hk' : k = seg'
        · rw [lookupChild, if_pos hk', lookupChild, if_pos hk']
        · rw [lookupChild, if_neg hk', lookupChild, if_neg hk']
          exact ih

theorem lookupChild_append_of_none (l l2 : List (Str × TagNode)) (seg : Str)
    (h : lookupChild l seg = none) :
    lookupChild (l ++ l2) seg = lookupChild l2 seg := by
  induction l with
  | nil => rfl
  | cons p rest ih =>
    cases p with
    | mk k d =>
      by_cases hk : k = seg
      · rw [lookupChild, if_pos hk] at h
        exact absurd h (by simp)
      · rw [lookupChild, if_neg hk] at h
        rw [List.cons_append, lookupChild, if_neg hk]
        exact ih h

theorem lookupChild_append_of_some (l l2 : List (Str × TagNode)) (seg : Str)
    (c : TagNode) (h : lookupChild l seg = some c) :
    lookupChild (l ++ l2) seg = some c := by
  induction l with
  | nil => simp [lookupChild] at h
  | cons p rest ih =>
    cases p with
    | mk k d =>
      by_cases hk : k = seg
      · rw [lookupChild, if_pos hk] at h
        rw [List.cons_append, lookupChild, if_pos hk]
        exact h
      · rw [lookupChild, if_neg hk] at h
        rw [List.cons_append, lookupChild, if_neg hk]
        exact ih h

theorem lookupChild_singleton_self (seg : Str) (c : TagNode) :
    lookupChild [(seg, c)] seg = some c := by
  rw [lookupChild, if_pos rfl]

theorem lookupChild_mem (l : List (Str × TagNode)) (seg : Str) (c : TagNode)
    (h : lookupChild l seg = some c) : (seg, c) ∈ l := by
  induction l with
  | nil => simp [lookupChild] at h
  | cons p rest ih =>
    cases p with
    | mk k d =>
      by_cases hk : k = seg
      · rw [lookupChild, if_pos hk] at h
        have hd : d = c := Option.some_inj.mp h
        subst hd
        subst hk
        exact List.mem_cons_self _ _
      · rw [lookupChild, if_neg hk] at h
        exact List.mem_cons_of_mem _ (ih h)

theorem lookupChild_none_iff (l : List (Str × TagNode)) (seg : Str) :
    lookupChild l seg = none ↔ seg ∉ l.map Prod.fst := by
  induction l with
  | nil => simp [lookupChild]
  | cons p rest ih =>
    cases p with
    | mk k d =>
      by_cases hk : k = seg
      · rw [lookupChild, if_pos hk]
        subst hk
        simp only [List.map_cons]
        constructor
        · intro h1
          exact absurd h1 (by simp)
        · intro h1
          exact absurd (List.mem_cons_self k (rest.map Prod.fst)) h1
      · rw [lookupChild, if_neg hk]
        simp only [List.map_cons, List.mem_cons, ih]
        constructor
        · intro h1 h2
          rcases h2 with h2 | h2
          · exact hk h2.symm
          · exact h1 h2
        · intro h1 h2
          exact h1 (Or.inr h2)

theorem lookupChild_of_mem_nodup (l : List (Str × TagNode)) (k : Str)
    (c : TagNode) (hmem : (k, c) ∈ l) (hnd : (l.map Prod.fst).Nodup) :
    lookupChild l k = some c := by
  induction l with
  | nil => simp at hmem
  | cons p rest ih =>
    cases p with
    | mk k2 d =>
      rw [List.map_cons, List.nodup_cons] at hnd
      rcases List.mem_cons.mp hmem with h1 | h1
      · injection h1 with hA hB
        subst hA
        subst hB
        rw [lookupChild, if_pos rfl]
      · have hk : ¬ k2 = k := by
          intro hh
          refine hnd.1 ?_
          rw [hh]
          exact List.mem_map.mpr ⟨(k, c), h1, rfl⟩
        rw [lookupChild, if_neg hk]
        exact ih h1 hnd.2

/-! ## insertTag / nodeAt interaction (C1, C4) -/

theorem nodeAt_mk_cons (nm fl : Str) (ch : List (Str × TagNode))
    (tg : List Tag) (seg : Str) (rest : List Str) :
    nodeAt (TagNode.mk nm fl ch tg) (seg :: rest) =
      match lookupChild ch seg with
      | none => none
      | some c => nodeAt c rest := rfl

theorem nodeAt_cons_none {nm fl : Str} {ch : List (Str × TagNode)}
    {tg : List Tag} {seg : Str} {rest : List Str}
    (h : lookupChild ch seg = none) :
    nodeAt (TagNode.mk nm fl ch tg) (seg :: rest) = none := by
  rw [nodeAt_mk_cons, h]

theorem nodeAt_cons_some {nm fl : Str} {ch : List (Str × TagNode)}
    {tg : List Tag} {seg : Str} {rest : List Str} {c : TagNode}
    (h : lookupChild ch seg = some c) :
    nodeAt (TagNode.mk nm fl ch tg) (seg :: rest) = nodeAt c rest := by
  rw [nodeAt_mk_cons, h]

theorem insertTag_nil (nm fl : Str) (ch : List (Str × TagNode))
    (tg : List Tag) (isFirst : Bool) (t : Tag) :
    insertTag (TagNode.mk nm fl ch tg) isFirst [] t =
      TagNode.mk nm fl ch (tg ++ [t]) := rfl

theorem insertTag_cons_some {nm fl : Str} {ch : List (Str × TagNode)}
    {tg : List Tag} {isFirst : Bool} {seg : Str} {rest : List Str} {t : Tag}
    {c : TagNode} (h : lookupChild ch seg = some c) :
    insertTag (TagNode.mk nm fl ch tg) isFirst (seg :: rest) t =
      TagNode.mk nm fl (replaceChild ch seg (insertTag c false rest t)) tg := by
  rw [insertTag, h]

theorem insertTag_cons_none {nm fl : Str} {ch : List (Str × TagNode)}
    {tg : List Tag} {isFirst : Bool} {seg : Str} {rest : List Str} {t : Tag}
    (h : lookupChild ch seg = none) :
    insertTag (TagNode.mk nm fl ch tg) isFirst (seg :: rest) t =
      TagNode.mk nm fl
        (ch ++ [(seg, insertTag
          (TagNode.mk seg (if isFirst then seg else fl ++ '/' :: seg) [] [])
          false rest t)]) tg := by
  rw [insertTag, h]

/-- How one `buildTree` loop iteration changes the `tagsHere` list observed
at any path `segs'`: at the insertion path `segs` the tag is appended (to an
empty list when the node is new); any other existing node is unchanged;
strict-prefix nodes of `segs` are created empty; all other paths stay
absent. -/
theorem insertTag_nodeAt : ∀ (segs : List Str) (n : TagNode) (isFirst : Bool)
    (t : Tag) (segs' : List Str),
    Option.map TagNode.tagsHere (nodeAt (insertTag n isFirst segs t) segs') =
      if segs' = segs then
        some ((Option.map TagNode.tagsHere (nodeAt n segs)).getD [] ++ [t])
      else
        match nodeAt n segs' with
        | some mnode => some (TagNode.tagsHere mnode)
        | none => if segs' <+: segs then some [] else none := by
  intro segs
  induction segs with
  | nil =>
    intro n isFirst t segs'
    cases n with
    | mk nm fl ch tg =>
      rw [insertTag_nil]
      cases segs' with
      | nil =>
        rw [if_pos rfl]
        simp [nodeAt, TagNode.tagsHere]
      | cons s' xs =>
        rw [if_neg (by simp : ¬ (s' :: xs = ([] : List Str)))]
        cases hlk : lookupChild ch s' with
        | none =>
          rw [nodeAt_cons_none hlk, nodeAt_cons_none hlk]
          simp [List.prefix_nil]
        | some c =>
          rw [nodeAt_cons_some hlk, nodeAt_cons_some hlk]
          cases nodeAt c xs <;> simp
  | cons seg rest ih =>
    intro n isFirst t segs'
    cases n with
    | mk nm fl ch tg =>
      cases hlk : lookupChild ch seg with
      | some c =>
        rw [insertTag_cons_some hlk]
        cases segs' with
        | nil =>
          rw [if_neg (by simp : ¬ (([] : List Str) = seg :: rest))]
          simp [nodeAt, TagNode.tagsHere]
        | cons s' xs =>
          by_cases hs : s' = seg
          · subst hs
            have hlk2 : lookupChild (replaceChild ch s' (insertTag c false rest t)) s' =
                some (insertTag c false rest t) :=
              lookupChild_replaceChild_self ch s' c _ hlk
            rw [nodeAt_cons_some hlk2, ih c false t xs]
            by_cases hxr : xs = rest
            · subst hxr
              rw [if_pos rfl, if_pos rfl, nodeAt_cons_some hlk]
            · have hne2 : ¬ (s' :: xs = s' :: rest) := by simp [hxr]
              rw [if_neg hxr, if_neg hne2, nodeAt_cons_some hlk]
              cases nodeAt c xs with
              | some m => rfl
              | none =>
                by_cases hpre : xs <+: rest
                · rw [if_pos hpre,
                    if_pos (List.cons_prefix_cons.mpr ⟨rfl, hpre⟩)]
                · rw [if_neg hpre,
                    if_neg (fun hc => hpre (List.cons_prefix_cons.mp hc).2)]
          · have hlk2 : lookupChild (replaceChild ch seg (insertTag c false rest t)) s' =
                lookupChild ch s' :=
              lookupChild_replaceChild_ne ch seg s' _ hs
            have hne2 : ¬ (s' :: xs = seg :: rest) := by simp [hs]
            rw [if_neg hne2]
            cases hlk3 : lookupChild ch s' with
            | none =>
              rw [nodeAt_cons_none (hlk2.trans hlk3), nodeAt_cons_none hlk3,
                if_neg (fun hc => hs (List.cons_prefix_cons.mp hc).1)]
              rfl
            | some d =>
              rw [nodeAt_cons_some (hlk2.trans hlk3), nodeAt_cons_some hlk3]
              cases nodeAt d xs <;> simp [hs]
      | none =>
        rw [insertTag_cons_none hlk]
        generalize (if isFirst = true then seg else fl ++ '/' :: seg) = nf
        cases segs' with
        | nil =>
          rw [if_neg (by simp : ¬ (([] : List Str) = seg :: rest))]
          simp [nodeAt, TagNode.tagsHere]
        | cons s' xs =>
          by_cases hs : s' = seg
          · subst hs
            have hlk2 : lookupChild
                (ch ++ [(s', insertTag (TagNode.mk s' nf [] []) false rest t)]) s' =
                some (insertTag (TagNode.mk s' nf [] []) false rest t) := by
              rw [lookupChild_append_of_none ch _ s' hlk,
                lookupChild_singleton_self]
            rw [nodeAt_cons_some hlk2, ih (TagNode.mk s' nf [] []) false t xs]
            by_cases hxr : xs = rest
            · subst hxr
              rw [if_pos rfl, if_pos rfl, nodeAt_cons_none hlk]
              cases xs with
              | nil => rfl
              | cons y ys =>
                have hn : nodeAt (TagNode.mk s' nf [] []) (y :: ys) = none :=
                  nodeAt_cons_none rfl
                rw [hn]
            · have hne2 : ¬ (s' :: xs = s' :: rest) := by simp [hxr]
              rw [if_neg hxr, if_neg hne2, nodeAt_cons_none hlk]
              cases xs with
              | nil =>
                rw [if_pos (List.cons_prefix_cons.mpr ⟨rfl, List.nil_prefix⟩)]
                rfl
              | cons y ys =>
                have hn : nodeAt (TagNode.mk s' nf [] []) (y :: ys) = none :=
                  nodeAt_cons_none rfl
                rw [hn]
                by_cases hpre : y :: ys <+: rest
                · rw [if_pos hpre,
                    if_pos (List.cons_prefix_cons.mpr ⟨rfl, hpre⟩)]
                · rw [if_neg hpre,
                    if_neg (fun hc => hpre (List.cons_prefix_cons.mp hc).2)]
          · have hne2 : ¬ (s' :: xs = seg :: rest) := by simp [hs]
            rw [if_neg hne2]
            cases hlk3 : lookupChild ch s' with
            | none =>
              have h2 : lookupChild
                  (ch ++ [(seg, insertTag (TagNode.mk seg nf [] []) false rest t)])
                  s' = none := by
                rw [lookupChild_append_of_none ch _ s' hlk3, lookupChild,
                  if_neg (fun hh : seg = s' => hs hh.symm)]
                rfl
              rw [nodeAt_cons_none h2, nodeAt_cons_none hlk3,
                if_neg (fun hc => hs (List.cons_prefix_cons.mp hc).1)]
              rfl
            | some d =>
              have h2 : lookupChild
                  (ch ++ [(seg, insertTag (TagNode.mk seg nf [] []) false rest t)])
                  s' = some d :=
                lookupChild_append_of_some ch _ s' d hlk3
              rw [nodeAt_cons_some h2, nodeAt_cons_some hlk3]
              cases nodeAt d xs <;> simp [hs]

/-! ## buildTree invariant (C1) -/

theorem treeInv_empty : TreeInv [] emptyRoot := by
  intro segs
  cases segs with
  | nil => rfl
  | cons s xs =>
    have h : nodeAt emptyRoot (s :: xs) = none := nodeAt_cons_none rfl
    rw [h]
    intro t ht
    exact absurd ht (List.not_mem_nil t)

theorem treeInv_step (processed : List Tag) (tree : TagNode) (t : Tag)
    (h : TreeInv processed tree) :
    TreeInv (processed ++ [t]) (insertTag tree true (segsOfTag t) t) := by
  intro segs'
  have hkey := insertTag_nodeAt (segsOfTag t) tree true t segs'
  by_cases hseg : segs' = segsOfTag t
  · rw [hseg] at hkey ⊢
    rw [if_pos rfl] at hkey
    rcases Option.map_eq_some'.mp hkey with ⟨nn, hres, htags⟩
    rw [hres]
    show TagNode.tagsHere nn = _
    rw [htags, List.filter_append]
    have hlast : List.filter (fun u => decide (segsOfTag u = segsOfTag t)) [t] =
        [t] := by
      rw [List.filter_cons, if_pos (by simp)]
      rfl
    rw [hlast]
    have hold : (Option.map TagNode.tagsHere (nodeAt tree (segsOfTag t))).getD [] =
        processed.filter (fun u => decide (segsOfTag u = segsOfTag t)) := by
      have hm := h (segsOfTag t)
      cases hat : nodeAt tree (segsOfTag t) with
      | some m =>
        rw [hat] at hm
        have hm' : TagNode.tagsHere m =
            processed.filter (fun u => decide (segsOfTag u = segsOfTag t)) := hm
        exact hm'
      | none =>
        rw [hat] at hm
        have hm' : ∀ u ∈ processed, ¬ segsOfTag u = segsOfTag t := hm
        show ([] : List Tag) = _
        symm
        rw [List.filter_eq_nil_iff]
        intro u hu
        simp only [decide_eq_true_eq]
        exact hm' u hu
    rw [hold]
  · rw [if_neg hseg] at hkey
    have hm := h segs'
    have hlast : List.filter (fun u => decide (segsOfTag u = segs')) [t] = [] := by
      rw [List.filter_cons, if_neg (by simp; exact fun hc => hseg hc.symm)]
      rfl
    cases hat : nodeAt tree segs' with
    | some m =>
      rw [hat] at hkey hm
      have hm' : TagNode.tagsHere m =
          processed.filter (fun u => decide (segsOfTag u = segs')) := hm
      have hkey' : Option.map TagNode.tagsHere
          (nodeAt (insertTag tree true (segsOfTag t) t) segs') =
          some (TagNode.tagsHere m) := hkey
      rcases Option.map_eq_some'.mp hkey' with ⟨nn, hres, htags⟩
      rw [hres]
      show TagNode.tagsHere nn = _
      rw [htags, hm', List.filter_append, hlast, List.append_nil]
    | none =>
      rw [hat] at hkey hm
      have hm' : ∀ u ∈ processed, ¬ segsOfTag u = segs' := hm
      by_cases hpre : segs' <+: segsOfTag t
      · rw [if_pos hpre] at hkey
        have hkey' : Option.map TagNode.tagsHere
            (nodeAt (insertTag tree true (segsOfTag t) t) segs') =
            some [] := hkey
        rcases Option.map_eq_some'.mp hkey' with ⟨nn, hres, htags⟩
        rw [hres]
        show TagNode.tagsHere nn = _
        rw [htags]
        symm
        rw [List.filter_eq_nil_iff]
        intro u hu
        simp only [decide_eq_true_eq]
        rcases List.mem_append.mp hu with hu | hu
        · exact hm' u hu
        · simp only [List.mem_singleton] at hu
          subst hu
          exact fun hc => hseg hc.symm
      · rw [if_neg hpre] at hkey
        have hkey' : Option.map TagNode.tagsHere
            (nodeAt (insertTag tree true (segsOfTag t) t) segs') = none := hkey
        have hres := Option.map_eq_none'.mp hkey'
        rw [hres]
        intro u hu
        rcases List.mem_append.mp hu with hu | hu
        · exact hm' u hu
        · simp only [List.mem_singleton] at hu
          subst hu
          exact fun hc => hseg hc.symm

theorem treeInv_foldl : ∀ (rest processed : List Tag) (tree : TagNode),
    TreeInv processed tree →
    TreeInv (processed ++ rest)
      (rest.foldl (fun r t => insertTag r true (segsOfTag t) t) tree) := by
  intro rest
  induction rest with
  | nil =>
    intro processed tree h
    simpa using h
  | cons t ts ih =>
    intro processed tree h
    rw [List.foldl_cons]
    have h3 := ih (processed ++ [t]) _ (treeInv_step processed tree t h)
    simpa using h3

theorem buildTree_inv (tags : List Tag) : TreeInv tags (buildTree tags) := by
  have h := treeInv_foldl tags [] emptyRoot treeInv_empty
  simpa [buildTree] using h

theorem insertTag_name (n : TagNode) (isFirst : Bool) (segs : List Str)
    (t : Tag) : TagNode.name (insertTag n isFirst segs t) = TagNode.name n ∧
      TagNode.full (insertTag n isFirst segs t) = TagNode.full n := by
  cases n with
  | mk nm fl ch tg =>
    cases segs with
    | nil => exact ⟨rfl, rfl⟩
    | cons seg rest =>
      cases hlk : lookupChild ch seg with
      | some c =>
        rw [insertTag_cons_some hlk]
        exact ⟨rfl, rfl⟩
      | none =>
        rw [insertTag_cons_none hlk]
        exact ⟨rfl, rfl⟩

theorem buildTree_name (tags : List Tag) :
    TagNode.name (buildTree tags) = [] ∧ TagNode.full (buildTree tags) = [] := by
  rw [buildTree]
  have h : ∀ (l : List Tag) (tree : TagNode),
      TagNode.name (l.foldl (fun r t => insertTag r true (segsOfTag t) t) tree) =
        TagNode.name tree ∧
      TagNode.full (l.foldl (fun r t => insertTag r true (segsOfTag t) t) tree) =
        TagNode.full tree := by
    intro l
    induction l with
    | nil => intro tree; exact ⟨rfl, rfl⟩
    | cons t ts ih =>
      intro tree
      rw [List.foldl_cons]
      rcases ih (insertTag tree true (segsOfTag t) t) with ⟨h1, h2⟩
      rcases insertTag_name tree true (segsOfTag t) t with ⟨h3, h4⟩
      exact ⟨h1.trans h3, h2.trans h4⟩
  rcases h tags emptyRoot with ⟨h1, h2⟩
  exact ⟨h1, h2⟩

theorem segsOfTag_good (t : Tag) : ∀ s ∈ segsOfTag t, goodSeg s := by
  intro s hs
  rw [segsOfTag, List.mem_filter] at hs
  refine ⟨?_, mem_splitOnSlash_no_slash _ s hs.1⟩
  have h2 := hs.2
  intro hc
  rw [hc] at h2
  simp at h2

/-! ## Well-formedness preservation (C1, C4) -/

theorem replaceChild_keys (l : List (Str × TagNode)) (seg : Str) (c2 : TagNode) :
    (replaceChild l seg c2).map Prod.fst = l.map Prod.fst := by
  induction l with
  | nil => rfl
  | cons p rest ih =>
    cases p with
    | mk k d =>
      by_cases hk : k = seg
      · rw [replaceChild, if_pos hk, List.map_cons, List.map_cons]
      · rw [replaceChild, if_neg hk, List.map_cons, List.map_cons, ih]

theorem mem_replaceChild (l : List (Str × TagNode)) (seg : Str) (c2 : TagNode)
    (p : Str × TagNode) (hp : p ∈ replaceChild l seg c2) :
    p = (seg, c2) ∨ (p ∈ l ∧ p.1 ≠ seg) ∨ (p ∈ l ∧ p.1 = seg) := by
  induction l with
  | nil => simp [replaceChild] at hp
  | cons q rest ih =>
    cases q with
    | mk k d =>
      by_cases hk : k = seg
      · rw [replaceChild, if_pos hk] at hp
        rcases List.mem_cons.mp hp with h1 | h1
        · subst hk
          exact Or.inl (by rw [h1])
        · by_cases hps : p.1 = seg
          · exact Or.inr (Or.inr ⟨List.mem_cons_of_mem _ h1, hps⟩)
          · exact Or.inr (Or.inl ⟨List.mem_cons_of_mem _ h1, hps⟩)
      · rw [replaceChild, if_neg hk] at hp
        rcases List.mem_cons.mp hp with h1 | h1
        · subst h1
          by_cases hps : (k, d).1 = seg
          · exact Or.inr (Or.inr ⟨List.mem_cons_self _ _, hps⟩)
          · exact Or.inr (Or.inl ⟨List.mem_cons_self _ _, hps⟩)
        · rcases ih h1 with h2 | h2 | h2
          · exact Or.inl h2
          · exact Or.inr (Or.inl ⟨List.mem_cons_of_mem _ h2.1, h2.2⟩)
          · exact Or.inr (Or.inr ⟨List.mem_cons_of_mem _ h2.1, h2.2⟩)

/-- A replaced entry under a Nodup key list: every entry of the result is
either the new `(seg, c2)` pair or an old entry with a different key. -/
theorem mem_replaceChild_nodup (l : List (Str × TagNode)) (seg : Str)
    (c2 : TagNode) (hnd : (l.map Prod.fst).Nodup) (c : TagNode)
    (hlk : lookupChild l seg = some c) (p : Str × TagNode)
    (hp : p ∈ replaceChild l seg c2) :
    p = (seg, c2) ∨ (p ∈ l ∧ p.1 ≠ seg) := by
  induction l with
  | nil => simp [replaceChild] at hp
  | cons q rest ih =>
    cases q with
    | mk k d =>
      rw [List.map_cons, List.nodup_cons] at hnd
      by_cases hk : k = seg
      · rw [replaceChild, if_pos hk] at hp
        rcases List.mem_cons.mp hp with h1 | h1
        · subst hk
          exact Or.inl (by rw [h1])
        · refine Or.inr ⟨List.mem_cons_of_mem _ h1, ?_⟩
          intro hps
          subst hk
          refine hnd.1 ?_
          rw [← hps]
          exact List.mem_map.mpr ⟨p, h1, rfl⟩
      · rw [replaceChild, if_neg hk] at hp
        rw [lookupChild, if_neg hk] at hlk
        rcases List.mem_cons.mp hp with h1 | h1
        · subst h1
          exact Or.inr ⟨List.mem_cons_self _ _, hk⟩
        · rcases ih hnd.2 hlk h1 with h2 | h2
          · exact Or.inl h2
          · exact Or.inr ⟨List.mem_cons_of_mem _ h2.1, h2.2⟩

theorem insertTag_wf : ∀ (segs : List Str) (n : TagNode) (isTop : Bool) (t : Tag),
    Wf isTop n → (∀ s ∈ segs, goodSeg s) → Wf isTop (insertTag n isTop segs t) := by
  intro segs
  induction segs with
  | nil =>
    intro n isTop t hwf hgood
    cases n with
    | mk nm fl ch tg =>
      rw [insertTag_nil]
      cases hwf with
      | node _ _ _ _ _ hname hfull hkeys hsg hrec =>
        exact Wf.node isTop nm fl ch (tg ++ [t]) hname hfull hkeys hsg hrec
  | cons seg rest ih =>
    intro n isTop t hwf hgood
    have hgseg : goodSeg seg := hgood seg (List.mem_cons_self _ _)
    have hgrest : ∀ s ∈ rest, goodSeg s :=
      fun s hs => hgood s (List.mem_cons_of_mem _ hs)
    cases n with
    | mk nm fl ch tg =>
      cases hwf with
      | node _ _ _ _ _ hname hfull hkeys hsg hrec =>
        cases hlk : lookupChild ch seg with
        | some c =>
          rw [insertTag_cons_some hlk]
          have hmemc : (seg, c) ∈ ch := lookupChild_mem ch seg c hlk
          have hin : ∀ p ∈ replaceChild ch seg (insertTag c false rest t),
              p = (seg, insertTag c false rest t) ∨ (p ∈ ch ∧ p.1 ≠ seg) :=
            fun p hp => mem_replaceChild_nodup ch seg _ hkeys c hlk p hp
          refine Wf.node isTop nm fl _ tg ?_ ?_ ?_ ?_ ?_
          · intro p hp
            rcases hin p hp with h1 | h1
            · subst h1
              show TagNode.name (insertTag c false rest t) = seg
              rw [(insertTag_name c false rest t).1]
              exact hname (seg, c) hmemc
            · exact hname p h1.1
          · intro p hp
            rcases hin p hp with h1 | h1
            · subst h1
              show TagNode.full (insertTag c false rest t) = _
              rw [(insertTag_name c false rest t).2]
              exact hfull (seg, c) hmemc
            · exact hfull p h1.1
          · rw [replaceChild_keys]
            exact hkeys
          · intro p hp
            rcases hin p hp with h1 | h1
            · subst h1
              exact hsg (seg, c) hmemc
            · exact hsg p h1.1
          · intro p hp
            rcases hin p hp with h1 | h1
            · subst h1
              exact ih c false t (hrec (seg, c) hmemc) hgrest
            · exact hrec p h1.1
        | none =>
          rw [insertTag_cons_none hlk]
          have hnotin : seg ∉ ch.map Prod.fst := (lookupChild_none_iff ch seg).mp hlk
          have hwfc0 : Wf false
              (TagNode.mk seg (if isTop = true then seg else fl ++ '/' :: seg) [] []) :=
            Wf.node false seg _ [] [] (by simp) (by simp) (by simp) (by simp)
              (by simp)
          refine Wf.node isTop nm fl _ tg ?_ ?_ ?_ ?_ ?_
          · intro p hp
            rcases List.mem_append.mp hp with h1 | h1
            · exact hname p h1
            · simp only [List.mem_singleton] at h1
              subst h1
              show TagNode.name (insertTag _ false rest t) = seg
              rw [(insertTag_name _ false rest t).1]
              rfl
          · intro p hp
            rcases List.mem_append.mp hp with h1 | h1
            · exact hfull p h1
            · simp only [List.mem_singleton] at h1
              subst h1
              show TagNode.full (insertTag _ false rest t) = _
              rw [(insertTag_name _ false rest t).2]
              rfl
          · rw [List.map_append]
            refine List.nodup_append.mpr ⟨hkeys, by simp, ?_⟩
            intro a ha hb
            simp only [List.map_cons, List.map_nil, List.mem_singleton] at hb
            rw [hb] at ha
            exact hnotin ha
          · intro p hp
            rcases List.mem_append.mp hp with h1 | h1
            · exact hsg p h1
            · simp only [List.mem_singleton] at h1
              subst h1
              exact hgseg
          · intro p hp
            rcases List.mem_append.mp hp with h1 | h1
            · exact hrec p h1
            · simp only [List.mem_singleton] at h1
              subst h1
              exact ih _ false t hwfc0 hgrest

theorem buildTree_wf (tags : List Tag) : Wf true (buildTree tags) := by
  rw [buildTree]
  have base : Wf true emptyRoot :=
    Wf.node true [] [] [] [] (by simp) (by simp) (by simp) (by simp) (by simp)
  have h : ∀ (l : List Tag) (tree : TagNode), Wf true tree →
      Wf true (l.foldl (fun r t => insertTag r true (segsOfTag t) t) tree) := by
    intro l
    induction l with
    | nil =>
      intro tree h
      exact h
    | cons t ts ih2 =>
      intro tree h
      rw [List.foldl_cons]
      exact ih2 _ (insertTag_wf (segsOfTag t) tree true t h (segsOfTag_good t))
  exact h tags emptyRoot base

/-! ## Full fields along paths (C1, C4) -/

theorem wf_nodeAt_deep : ∀ (segs : List Str) (m : TagNode) (pre : List Str),
    Wf false m → pre ≠ [] → (∀ s ∈ pre, s ≠ []) →
    TagNode.full m = joinSlash pre →
    ∀ n', nodeAt m segs = some n' →
    pathNames m segs = some segs ∧
    TagNode.full n' = joinSlash (pre ++ segs) := by
  intro segs
  induction segs with
  | nil =>
    intro m pre hwf hpre hprene hfull n' hn
    have hm : n' = m := Option.some_inj.mp hn.symm
    subst hm
    refine ⟨rfl, ?_⟩
    rw [List.append_nil, hfull]
  | cons seg rest ih =>
    intro m pre hwf hpre hprene hfull n' hn
    cases m with
    | mk nm fl ch tg =>
      cases hwf with
      | node _ _ _ _ _ hname hfullc hkeys hsg hrec =>
        cases hlk : lookupChild ch seg with
        | none =>
          rw [nodeAt_cons_none hlk] at hn
          exact absurd hn (by simp)
        | some c =>
          rw [nodeAt_cons_some hlk] at hn
          have hmemc : (seg, c) ∈ ch := lookupChild_mem ch seg c hlk
          have hcname : TagNode.name c = seg := hname (seg, c) hmemc
          have hcfull : TagNode.full c = fl ++ '/' :: seg := by
            have h1 := hfullc (seg, c) hmemc
            simpa using h1
          have hgood : goodSeg seg := hsg (seg, c) hmemc
          have hcfull2 : TagNode.full c = joinSlash (pre ++ [seg]) := by
            rw [joinSlash_append_singleton pre seg hpre, ← hfull]
            exact hcfull
          have hprene2 : ∀ s ∈ pre ++ [seg], s ≠ [] := by
            intro s hs
            rcases List.mem_append.mp hs with hs | hs
            · exact hprene s hs
            · simp only [List.mem_singleton] at hs
              subst hs
              exact hgood.1
          rcases ih c (pre ++ [seg]) (hrec (seg, c) hmemc) (by simp) hprene2
            hcfull2 n' hn with ⟨hpn, hfn⟩
          constructor
          · rw [pathNames]
            show (match lookupChild ch seg with
              | none => none
              | some c => (pathNames c rest).map
                  (fun ns => TagNode.name c :: ns)) = some (seg :: rest)
            rw [hlk]
            show (pathNames c rest).map (fun ns => TagNode.name c :: ns) =
              some (seg :: rest)
            rw [hpn]
            simp [hcname]
          · rw [hfn]
            rw [List.append_assoc]
            rfl

theorem wf_nodeAt_root (root : TagNode) (hwf : Wf true root)
    (hfull : TagNode.full root = []) :
    ∀ (segs : List Str) (n' : TagNode), nodeAt root segs = some n' →
    pathNames root segs = some segs ∧ TagNode.full n' = joinSlash segs := by
  intro segs n' hn
  cases segs with
  | nil =>
    have hm : n' = root := Option.some_inj.mp hn.symm
    subst hm
    exact ⟨rfl, by rw [hfull]; rfl⟩
  | cons seg rest =>
    cases root with
    | mk nm fl ch tg =>
      cases hwf with
      | node _ _ _ _ _ hname hfullc hkeys hsg hrec =>
        cases hlk : lookupChild ch seg with
        | none =>
          rw [nodeAt_cons_none hlk] at hn
          exact absurd hn (by simp)
        | some c =>
          rw [nodeAt_cons_some hlk] at hn
          have hmemc : (seg, c) ∈ ch := lookupChild_mem ch seg c hlk
          have hcname : TagNode.name c = seg := hname (seg, c) hmemc
          have hcfull : TagNode.full c = seg := by
            have h1 := hfullc (seg, c) hmemc
            simpa using h1
          have hgood : goodSeg seg := hsg (seg, c) hmemc
          have hcfull2 : TagNode.full c = joinSlash [seg] := hcfull
          have hprene2 : ∀ s ∈ [seg], s ≠ [] := by
            intro s hs
            simp only [List.mem_singleton] at hs
            subst hs
            exact hgood.1
          rcases wf_nodeAt_deep rest c [seg] (hrec (seg, c) hmemc) (by simp)
            hprene2 hcfull2 n' hn with ⟨hpn, hfn⟩
          constructor
          · rw [pathNames]
            show (match lookupChild ch seg with
              | none => none
              | some c => (pathNames c rest).map
                  (fun ns => TagNode.name c :: ns)) = some (seg :: rest)
            rw [hlk]
            show (pathNames c rest).map (fun ns => TagNode.name c :: ns) =
              some (seg :: rest)
            rw [hpn]
            simp [hcname]
          · rw [hfn]
            rfl

/-! ## Reachability of subtree nodes (C4) -/

theorem mem_subtreeNodesL (l : List (Str × TagNode)) (x : TagNode) :
    x ∈ subtreeNodesL l ↔ ∃ p ∈ l, x ∈ subtreeNodes p.2 := by
  induction l with
  | nil =>
    rw [subtreeNodesL]
    constructor
    · intro h
      exact absurd h (List.not_mem_nil x)
    · rintro ⟨p, hp, _⟩
      exact absurd hp (List.not_mem_nil p)
  | cons p rest ih =>
    rw [subtreeNodesL, List.mem_append, ih]
    constructor
    · rintro (h | ⟨q, hq, hx⟩)
      · exact ⟨p, List.mem_cons_self _ _, h⟩
      · exact ⟨q, List.mem_cons_of_mem _ hq, hx⟩
    · rintro ⟨q, hq, hx⟩
      rcases List.mem_cons.mp hq with h1 | h1
      · subst h1
        exact Or.inl hx
      · exact Or.inr ⟨q, h1, hx⟩

theorem self_mem_subtreeNodes (m : TagNode) : m ∈ subtreeNodes m := by
  cases m with
  | mk nm fl ch tg =>
    rw [subtreeNodes]
    exact List.mem_cons_self _ _

theorem wf_subtree_reach : ∀ (m : TagNode) (isTop : Bool), Wf isTop m →
    ∀ x ∈ subtreeNodes m, ∃ segs : List Str,
      (∀ s ∈ segs, goodSeg s) ∧ nodeAt m segs = some x := by
  intro m
  induction m using TagNode.inductionOn with
  | _ nm fl ch tg ihch =>
    intro isTop hwf x hx
    rw [subtreeNodes] at hx
    rcases List.mem_cons.mp hx with h1 | h1
    · subst h1
      exact ⟨[], by simp, rfl⟩
    · rcases (mem_subtreeNodesL ch x).mp h1 with ⟨p, hp, hxp⟩
      cases hwf with
      | node _ _ _ _ _ hname hfullc hkeys hsg hrec =>
        rcases ihch p hp false (hrec p hp) x hxp with ⟨segs', hgood', hat'⟩
        refine ⟨p.1 :: segs', ?_, ?_⟩
        · intro s hs
          rcases List.mem_cons.mp hs with hs | hs
          · subst hs
            exact hsg p hp
          · exact hgood' s hs
        · have hlk : lookupChild ch p.1 = some p.2 := by
            have hp2 : (p.1, p.2) ∈ ch := by
              rw [Prod.mk.eta]
              exact hp
            exact lookupChild_of_mem_nodup ch p.1 p.2 hp2 hkeys
          rw [nodeAt_cons_some hlk]
          exact hat'

/-! ## C1 — buildTree -/

/-- C1: `buildTree` returns a root with empty name and empty full path; each
input tag `t` appears in the `tagsHere` of exactly the node reached from
the root by walking, in order, the non-empty segments of `fullPath t` split
on `"/"` (an existing node at a path holds `t` iff that path is `t`'s
segment list); and every node of the tree has its `full` field equal to the
`"/"`-join of the sequence of node names on the path from the root to it
(which is the segment path itself). -/
theorem buildTree_correct (tags : List Tag) :
    TagNode.name (buildTree tags) = [] ∧ TagNode.full (buildTree tags) = [] ∧
    (∀ t ∈ tags, ∀ segs : List Str,
      (∃ n, nodeAt (buildTree tags) segs = some n ∧ t ∈ TagNode.tagsHere n) ↔
        segs = segsOfTag t) ∧
    (∀ (segs : List Str) (n : TagNode), nodeAt (buildTree tags) segs = some n →
      pathNames (buildTree tags) segs = some segs ∧
      TagNode.full n = joinSlash segs) := by
  have hinv := buildTree_inv tags
  rcases buildTree_name tags with ⟨h1, h2⟩
  refine ⟨h1, h2, ?_, ?_⟩
  · intro t ht segs
    constructor
    · rintro ⟨n, hn, htn⟩
      have hm := hinv segs
      rw [hn] at hm
      have hm' : TagNode.tagsHere n =
          tags.filter (fun u => decide (segsOfTag u = segs)) := hm
      rw [hm'] at htn
      rcases List.mem_filter.mp htn with ⟨_, hdec⟩
      exact (of_decide_eq_true hdec).symm
    · intro hseg
      subst hseg
      have hm := hinv (segsOfTag t)
      cases hat : nodeAt (buildTree tags) (segsOfTag t) with
      | none =>
        rw [hat] at hm
        have hm' : ∀ u ∈ tags, ¬ segsOfTag u = segsOfTag t := hm
        exact absurd rfl (hm' t ht)
      | some n =>
        rw [hat] at hm
        have hm' : TagNode.tagsHere n =
            tags.filter (fun u => decide (segsOfTag u = segsOfTag t)) := hm
        refine ⟨n, rfl, ?_⟩
        rw [hm']
        exact List.mem_filter.mpr ⟨ht, by simp⟩
  · intro segs n hn
    exact wf_nodeAt_root (buildTree tags) (buildTree_wf tags) h2 segs n hn

/-- Witness for `buildTree_correct`: the demo tag with full path `SIX/DEV`
is stored at the node reached by the segments `SIX`, `DEV`. -/
theorem buildTree_correct_witness :
    ∃ n, nodeAt (buildTree demoTags) (segsOfTag demoTagA) = some n ∧
      demoTagA ∈ TagNode.tagsHere n :=
  ((buildTree_correct demoTags).2.2.1 demoTagA (by decide)
    (segsOfTag demoTagA)).mpr rfl

/-! ## C4 — findNode round trip -/

/-- C4: for every tree built by `buildTree`, `findNode` round-trips: for
every node `m` of the tree, `findNode root (some m.full)` returns `m`
itself; and for an `undefined` path, an empty path, or a path whose
segments do not denote a node of the tree, `findNode` returns the root. -/
theorem findNode_roundtrip (tags : List Tag) :
    (∀ m ∈ subtreeNodes (buildTree tags),
      findNode (buildTree tags) (some (TagNode.full m)) = m) ∧
    findNode (buildTree tags) none = buildTree tags ∧
    findNode (buildTree tags) (some []) = buildTree tags ∧
    (∀ p : Str,
      nodeAt (buildTree tags)
        ((splitOnSlash p).filter (fun s => !s.isEmpty)) = none →
      findNode (buildTree tags) (some p) = buildTree tags) := by
  have hwf := buildTree_wf tags
  rcases buildTree_name tags with ⟨_, hfull⟩
  refine ⟨?_, rfl, rfl, ?_⟩
  · intro m hm
    rcases wf_subtree_reach (buildTree tags) true hwf m hm with ⟨segs, hgood, hat⟩
    rcases wf_nodeAt_root (buildTree tags) hwf hfull segs m hat with ⟨_, hfm⟩
    cases segs with
    | nil =>
      have hmr : m = buildTree tags := Option.some_inj.mp hat.symm
      subst hmr
      rw [hfm]
      rfl
    | cons s rest =>
      have hne : TagNode.full m ≠ [] := by
        rw [hfm]
        exact joinSlash_ne_nil (s :: rest) (by simp)
          (fun x hx => (hgood x hx).1)
      have hcond : ¬ (TagNode.full m).isEmpty = true := by
        rw [List.isEmpty_iff]
        exact hne
      rw [findNode, if_neg hcond, hfm, split_join (s :: rest) hgood, hat]
  · intro p h
    rw [findNode]
    by_cases hp : p.isEmpty = true
    · rw [if_pos hp]
    · rw [if_neg hp, h]

/-- Witness for `findNode_roundtrip`: the root of the demo tree is returned
for its own full path, and an unknown path falls back to the root. -/
theorem findNode_roundtrip_witness :
    findNode (buildTree demoTags) (some (TagNode.full (buildTree demoTags))) =
      buildTree demoTags ∧
    findNode (buildTree demoTags) (some (str ("NOPE"))) = buildTree demoTags := by
  constructor
  · exact (findNode_roundtrip demoTags).1 (buildTree demoTags)
      (self_mem_subtreeNodes (buildTree demoTags))
  · exact (findNode_roundtrip demoTags).2.2.2 (str ("NOPE")) rfl
